import Mathlib

set_option maxHeartbeats 1000000

/-!
Shallow embedding of the fwumious wabbit core computation blocks
(block_loss_functions.rs, block_normalize.rs, engine/block/normalize.rs,
block_ffm.rs, block_neuronlayer.rs, parser.rs) and proofs about them.

Machine `f32` values are modelled exactly: an ordinary finite float is a
rational number, and NaN is modelled by `none` in `Option ℚ` where the NaN
case matters (the loss block and the parser).  Transcendental operations of
the source (`exp`, `sqrt`, `powf`) are modelled over ℝ.
-/

/-- A machine float value where NaN matters: `none` models NaN, `some q` a
finite value. -/
abbrev FVal := Option ℚ

/-- Addition of float values: NaN absorbs (mirrors f32 addition on the
values the source can produce here). -/
def fadd (a b : FVal) : FVal :=
  match a, b with
  | some x, some y => some (x + y)
  | _, _ => none

/-- Multiplication of float values: NaN absorbs. -/
def fmul (a b : FVal) : FVal :=
  match a, b with
  | some x, some y => some (x * y)
  | _, _ => none

/-- Sum of a tape slice, `myslice.iter().sum()` in the source: a fold of
f32 addition starting at 0.0. -/
def fsum (l : List FVal) : FVal := l.foldl fadd (some 0)

/-- The logistic function of block_loss_functions.rs:
`(1.0+(-t).exp()).recip()`. -/
noncomputable def logistic (t : ℝ) : ℝ := ((1 : ℝ) + Real.exp (-t))⁻¹

/-- BlockSigmoid::forward_backward (block_loss_functions.rs lines 97-137):
from the input region it computes `wsum`, the clamped/NaN-guarded
prediction and the general gradient, and overwrites every cell of the
input region with the general gradient.  Returns
(prediction, general_gradient, new input region). -/
noncomputable def bsForwardBackward (inputs : List FVal) (label imp : ℝ) :
    ℝ × ℝ × List ℝ :=
  let wsum := fsum inputs
  let pg : ℝ × ℝ :=
    match wsum with
    | none => (logistic 0, 0)
    | some w =>
      if w < -50 then (logistic (-50), 0)
      else if w > 50 then (logistic 50, 0)
      else (logistic (w : ℝ), -(label - logistic (w : ℝ)) * imp)
  (pg.1, pg.2, List.replicate inputs.length pg.2)

/-- BlockSigmoid::forward (block_loss_functions.rs lines 159-183): the
prediction-only path; same clamping and NaN guard, no gradient. -/
noncomputable def bsForward (inputs : List FVal) : ℝ :=
  match fsum inputs with
  | none => logistic 0
  | some w =>
    if w < -50 then logistic (-50)
    else if w > 50 then logistic 50
    else logistic (w : ℝ)

/-- EPS of block_normalize.rs: `const EPS: f32 = 1e-2`. -/
noncomputable def normEPS : ℝ := 1 / 100

/-- The mean computed by BlockNormalize (both files): sum of the input
region divided by its length. -/
noncomputable def normMean (xs : List ℝ) : ℝ := xs.sum / xs.length

/-- The square-rooted variance proxy of BlockNormalize (block_normalize.rs
lines 81-95 and engine/block/normalize.rs internal_forward): with
`meansq = mean*mean` it accumulates `(meansq - x)^2` over the region, adds
EPS to the sum, divides by the length and takes the square root. -/
noncomputable def normDivisor (xs : List ℝ) : ℝ :=
  let meansq := normMean xs * normMean xs
  Real.sqrt (((xs.map (fun x => (meansq - x) * (meansq - x))).sum + normEPS)
    / xs.length)

/-- BlockNormalize::forward_backward (block_normalize.rs lines 67-112, the
same code as engine/block/normalize.rs lines 62-106): outputs are
`(x - mean) * variance_inv`; on the backward half each cell of the input
region becomes the gradient the downstream block left in the output region
times the same `variance_inv`.  `gs` is that downstream gradient region.
Returns (outputs, new input region). -/
noncomputable def normForwardBackward (xs gs : List ℝ) : List ℝ × List ℝ :=
  let varianceInv := 1 / normDivisor xs
  (xs.map (fun x => (x - normMean xs) * varianceInv),
   gs.map (fun g => g * varianceInv))

/-- BlockNormalize::internal_forward (engine/block/normalize.rs lines
128-161; identical arithmetic to BlockNormalize::forward of
block_normalize.rs lines 114-161): outputs are `x * variance_inv`, without
subtracting the mean. -/
noncomputable def normInternalForward (xs : List ℝ) : List ℝ :=
  let varianceInv := 1 / normDivisor xs
  xs.map (fun x => x * varianceInv)

/-- The divisor exactly as claim C7 words it: the square root of the mean
of `x^2 - 2*meansq*x + meansq^2`, clamped by adding `eps = 1e-2` to that
mean.  Written from the claim, to compare with `normDivisor` from the
source. -/
noncomputable def claimDivisorC7 (xs : List ℝ) : ℝ :=
  let meansq := normMean xs * normMean xs
  Real.sqrt ((xs.map (fun x => x * x - 2 * meansq * x + meansq * meansq)).sum
    / xs.length + normEPS)

/-- Modelled from the spec: the external `merand48` crate (not under src/),
"a deterministic 48-bit linear congruential generator seeded by weight
index".  One LCG step on the 64-bit seed, then the 23 bits below the top
16 become the mantissa of a float in [1,2), minus 1: a deterministic value
in [0,1). -/
def merand48 (x : ℕ) : ℚ :=
  (((((0xeece66d5deece66d * x + 2147483647) % 2 ^ 64) / 2 ^ 25) % 2 ^ 23 : ℕ) : ℚ)
    / 2 ^ 23

/-- The configuration fields of model_instance read by
BlockFFM::allocate_and_init_weights. -/
structure FfmInitCfg where
  ffm_k : ℕ
  ffm_weights_len : ℕ
  ffm_init_width : ℝ
  ffm_init_zero_band : ℝ
  ffm_init_center : ℝ

/-- BlockFFM::allocate_and_init_weights (block_ffm.rs lines 561-609),
"default" initialization type, as the value of weight cell `i`: the table
is first allocated all-zero; when `ffm_k > 0` each cell is overwritten,
with the width-0 mode using `merand48(len + i)` and the explicit-width
mode using `merand48(i)` with the zero-exclusion band and center shift.
Every sample is a pure function of the configuration and the cell index. -/
noncomputable def ffmInitWeight (cfg : FfmInitCfg) (i : ℕ) : ℝ :=
  if i < cfg.ffm_weights_len ∧ 0 < cfg.ffm_k then
    if cfg.ffm_init_width = 0 then
      (1 * (merand48 (cfg.ffm_weights_len + i) : ℝ) - 1 / 2) *
        (1 / Real.sqrt cfg.ffm_k / 50)
    else
      let zero_half_band_width := cfg.ffm_init_width * cfg.ffm_init_zero_band * (1 / 2)
      let band_width := cfg.ffm_init_width * (1 - cfg.ffm_init_zero_band)
      let w := (merand48 i : ℝ) * band_width - band_width * (1 / 2)
      let w2 := if w > 0 then w + zero_half_band_width else w - zero_half_band_width
      w2 + cfg.ffm_init_center
  else 0

/-- The neuron-layer initialization modes (block_neuronlayer.rs InitType). -/
inductive NeuronInitType
  | Random
  | RandomFirstNeuron1
  | RandomFirstNeuron10
  | One

/-- BlockNeuronLayer::allocate_and_init_weights (block_neuronlayer.rs lines
159-187) as the value of weight cell `i`, for `ni` inputs and `nn` neurons
(weights_len = (ni+1)*nn).  The source draws the first `nn*ni` cells from
`normal.sample(&mut rand::thread_rng())`: an external entropy source, NOT
the deterministic merand48 path (which is commented out in the source).
That stream of thread-RNG draws is the parameter `rng`: draw `i` is the
sample taken in loop iteration `i`.  After sampling, the init type
overwrites some cells and the bias cells are zeroed. -/
noncomputable def neuronInitWeight (rng : ℕ → ℝ) (ni nn : ℕ)
    (it : NeuronInitType) (i : ℕ) : ℝ :=
  let w0 : ℝ := 1
  let w1 := if i < nn * ni then rng i else w0
  let w2 :=
    match it with
    | .Random => w1
    | .RandomFirstNeuron1 => if i < ni then 1 else w1
    | .RandomFirstNeuron10 => if i = 0 then 1 else if i < ni then 0 else w1
    | .One => if i < (ni + 1) * nn then 1 else w1
  if nn * ni ≤ i ∧ i < nn * ni + nn then 0 else w2

/-- The per-weight optimizer interface of the source (optimizer.rs is not
under src/): `calculate_update(gradient, &mut state)` returns the value to
subtract from the weight and the new state. -/
structure Optim (σ : Type) where
  initial_data : σ
  calculate_update : ℝ → σ → ℝ × σ

/-- Modelled from the spec: OptimizerSGD (optimizer.rs not under src/);
"update = gradient × learning_rate", empty state. -/
noncomputable def optimizerSGD (lr : ℝ) : Optim Unit :=
  ⟨(), fun g _ => (g * lr, ())⟩

/-- Modelled from the spec: OptimizerAdagradFlex (optimizer.rs not under
src/); state is the accumulated gradient square seeded with
init_acc_gradient, "update = gradient × learning_rate / (accumulator ^
power_t); then accumulator += gradient²". -/
noncomputable def optimizerAdagradFlex (lr pt initAcc : ℝ) : Optim ℝ :=
  ⟨initAcc, fun g acc => (g * lr / Real.rpow acc pt, acc + g * g)⟩

/-- Modelled from the spec: OptimizerAdagradLUT (optimizer.rs not under
src/); same shape as AdaGrad-Flex but the power of the accumulator
(together with the learning rate) is read from a precomputed lookup table
`lut` indexed by the accumulator. -/
noncomputable def optimizerAdagradLUT (lut : ℝ → ℝ) : Optim ℝ :=
  ⟨0, fun g acc => (g * lut acc, acc + g * g)⟩

/-- Dropout keep-guard of BlockNeuronLayer::forward_backward
(block_neuronlayer.rs lines 229 and 260):
`self.dropout == 0.0 || merand48(j as u64 + frandseed) > self.dropout`
with `frandseed = fb.example_number * fb.example_number`. -/
def neuronDropGuard (dropout : ℚ) (j ex : ℕ) : Prop :=
  dropout = 0 ∨ merand48 (j + ex * ex) > dropout

instance (dropout : ℚ) (j ex : ℕ) : Decidable (neuronDropGuard dropout j ex) := by
  unfold neuronDropGuard; infer_instance

/-- The weighted sum a kept neuron computes (block_neuronlayer.rs lines
230-234): bias term `weights[bias_offset + j]` plus the dot product of the
input region with row `j` of the weight matrix. -/
def neuronWsum (w x : ℕ → ℚ) (ni nn j : ℕ) : ℚ :=
  w (ni * nn + j) + ∑ i ∈ Finset.range ni, x i * w (i + j * ni)

/-- Output cell `j` of BlockNeuronLayer::forward_backward
(block_neuronlayer.rs lines 227-239): `wsum` is 0 for a dropped neuron,
and when `update` is false the emitted value is scaled by
`dropout_1 = 1 - dropout`. -/
def neuronForwardOut (w x : ℕ → ℚ) (ni nn : ℕ) (dropout : ℚ) (ex : ℕ)
    (update : Bool) (j : ℕ) : ℚ :=
  let wsum := if neuronDropGuard dropout j ex then neuronWsum w x ni nn j else 0
  if update then wsum else wsum * (1 - dropout)

/-- The inner input loop of the neuron-layer backward pass
(block_neuronlayer.rs lines 265-275): for each input `i` the optimizer is
fed `general_gradient * x_i`, the upstream error accumulates
`weight * general_gradient` (reading the weight before it is updated), and
the weight is decremented by the optimizer update.  State is
(weights, optimizer data, output_errors). -/
def neuronBwI {σ : Type} (O : Optim σ) (g : ℝ) (x : ℕ → ℝ) (joff : ℕ) :
    ℕ → ℕ → ((ℕ → ℝ) × (ℕ → σ) × (ℕ → ℝ)) → ((ℕ → ℝ) × (ℕ → σ) × (ℕ → ℝ))
  | 0, _, st => st
  | fuel + 1, i, (w, opt, err) =>
    let gradient := g * x i
    let u := O.calculate_update gradient (opt (i + joff))
    let err2 := Function.update err i (err i + w (i + joff) * g)
    let w2 := Function.update w (i + joff) (w (i + joff) - u.1)
    neuronBwI O g x joff fuel (i + 1) (w2, Function.update opt (i + joff) u.2, err2)

/-- Max-norm step of the neuron-layer backward pass (block_neuronlayer.rs
lines 285-298): if the L2 norm of row `j` (post-update) exceeds max_norm,
the whole row is rescaled by `max_norm / norm`. -/
noncomputable def neuronMaxNorm (ni : ℕ) (maxn : ℝ) (joff : ℕ) (w : ℕ → ℝ) :
    ℕ → ℝ :=
  let norm := Real.sqrt (∑ i ∈ Finset.range ni, w (i + joff) * w (i + joff))
  if norm > maxn then
    fun idx => if joff ≤ idx ∧ idx < joff + ni then w idx * (maxn / norm) else w idx
  else w

/-- The per-neuron loop of the neuron-layer backward pass
(block_neuronlayer.rs lines 259-301): a dropped neuron (same guard as the
forward half) is skipped entirely; a kept neuron runs the input loop, the
bias update, and - when max_norm is set and the example number is a
multiple of 10 - the max-norm rescaling. -/
noncomputable def neuronBwJ {σ : Type} (O : Optim σ) (x gt : ℕ → ℝ)
    (ni nn : ℕ) (dropout : ℚ) (maxn : ℝ) (ex : ℕ) :
    ℕ → ℕ → ((ℕ → ℝ) × (ℕ → σ) × (ℕ → ℝ)) → ((ℕ → ℝ) × (ℕ → σ) × (ℕ → ℝ))
  | 0, _, st => st
  | fuel + 1, j, (w, opt, err) =>
    if neuronDropGuard dropout j ex then
      let g := gt j
      let st1 := neuronBwI O g x (j * ni) ni 0 (w, opt, err)
      let ub := O.calculate_update (g * 1) (st1.2.1 (ni * nn + j))
      let w2 := Function.update st1.1 (ni * nn + j) (st1.1 (ni * nn + j) - ub.1)
      let opt2 := Function.update st1.2.1 (ni * nn + j) ub.2
      let w3 := if maxn ≠ 0 ∧ ex % 10 = 0 then neuronMaxNorm ni maxn (j * ni) w2 else w2
      neuronBwJ O x gt ni nn dropout maxn ex fuel (j + 1) (w3, opt2, st1.2.2)
    else
      neuronBwJ O x gt ni nn dropout maxn ex fuel (j + 1) (w, opt, err)

/-- The backward half of BlockNeuronLayer::forward_backward
(block_neuronlayer.rs lines 243-306, NeuronType::WeightedSum): output
errors start at zero, the neuron loop runs over all `nn` neurons, and the
result carries (weights, optimizer data, the error region written back to
the input tape).  `gt` is the gradient region the downstream block left in
this block's output region; `x` is the forward input region. -/
noncomputable def neuronBackward {σ : Type} (O : Optim σ) (x gt : ℕ → ℝ)
    (ni nn : ℕ) (dropout : ℚ) (maxn : ℝ) (ex : ℕ)
    (w : ℕ → ℝ) (opt : ℕ → σ) : (ℕ → ℝ) × (ℕ → σ) × (ℕ → ℝ) :=
  neuronBwJ O x gt ni nn dropout maxn ex nn 0 (w, opt, fun _ => 0)

/-- One FFM feature of the feature buffer (feature_buffer.rs
HashAndValueAndSeq as used by block_ffm.rs): base index into the weight
table, numeric value, and `contra_field_index = field * ffm_k`. -/
structure HashAndValueAndSeq where
  hash : ℕ
  value : ℚ
  contra_field_index : ℕ
deriving DecidableEq, Repr

/-- The innermost weight-update loop of the FFM backward pass
(block_ffm.rs lines 316-349; the scalar prefix and the 4-lane SIMD body
perform the same per-coordinate updates, embedded here as one loop over
the k coordinates): `gradient = general_gradient * cached_value`, the
optimizer update is subtracted from the weight, and both the running
index into the cached-gradient store (`li`) and the weight index (`fi`)
advance by one. -/
def ffmBwT {σ : Type} (O : Optim σ) (ld : ℕ → ℝ) (ggrad : ℝ) :
    ℕ → (ℕ → ℝ) → (ℕ → σ) → ℕ → ℕ → ((ℕ → ℝ) × (ℕ → σ) × ℕ × ℕ)
  | 0, w, opt, li, fi => (w, opt, li, fi)
  | fuel + 1, w, opt, li, fi =>
    let gradient := ggrad * ld li
    let u := O.calculate_update gradient (opt fi)
    ffmBwT O ld ggrad fuel (Function.update w fi (w fi - u.1))
      (Function.update opt fi u.2) (li + 1) (fi + 1)

/-- The target-field loop of the FFM backward pass (block_ffm.rs lines
313-350): for each target field `z` the general gradient is read from
output cell `contra_offset + z` and the k-coordinate loop runs. -/
def ffmBwZ {σ : Type} (O : Optim σ) (ld gt : ℕ → ℝ) (coff k : ℕ) :
    ℕ → ℕ → ((ℕ → ℝ) × (ℕ → σ) × ℕ × ℕ) → ((ℕ → ℝ) × (ℕ → σ) × ℕ × ℕ)
  | 0, _, st => st
  | fuel + 1, z, (w, opt, li, fi) =>
    let g := gt (coff + z)
    ffmBwZ O ld gt coff k fuel (z + 1) (ffmBwT O ld g k w opt li fi)

/-- The feature loop of the FFM backward pass (block_ffm.rs lines
305-352): per feature, the weight index restarts at the feature's hash
and `contra_offset = contra_field_index * ffm_fields_count / ffm_k`;
`li` keeps running across features.  `gt` is the m*m output region after
the downstream blocks overwrote it with gradients; `ld` is the
local_data_ffm_values cache filled by the forward half.  Returns
(weights, optimizer data). -/
def ffmBackward {σ : Type} (O : Optim σ) (k m : ℕ) (ld gt : ℕ → ℝ) :
    List HashAndValueAndSeq → ((ℕ → ℝ) × (ℕ → σ) × ℕ) → ((ℕ → ℝ) × (ℕ → σ))
  | [], (w, opt, _) => (w, opt)
  | f :: rest, (w, opt, li) =>
    let coff := f.contra_field_index * m / k
    let st := ffmBwZ O ld gt coff k m 0 (w, opt, li, f.hash)
    ffmBackward O k m ld gt rest (st.1, st.2.1, st.2.2.1)

/-- A region overwrite used by the FFM forward contra construction: inside
`[off, off + len)` the first feature of a field overwrites
(`first = true`) and later features accumulate; outside the region the
scratch keeps its previous (possibly uninitialized) content.  Mirrors
block_ffm.rs lines 463-485. -/
def ffmFeatureWrite (w : ℕ → ℚ) (off len : ℕ) (first : Bool) (hash : ℕ)
    (v : ℚ) (contra : ℕ → ℚ) : ℕ → ℚ :=
  fun idx =>
    if off ≤ idx ∧ idx < off + len then
      (if first then 0 else contra idx) + v * w (hash + (idx - off))
    else contra idx

/-- Zero-fill of a field's whole contra region for a field with no
features (block_ffm.rs lines 431-445). -/
def regionZero (contra : ℕ → ℚ) (off len : ℕ) : ℕ → ℚ :=
  fun idx => if off ≤ idx ∧ idx < off + len then 0 else contra idx

/-- Adding a value to one output cell (the `+=` / `-=` writes into
myslice). -/
def addCell (out : ℕ → ℚ) (c : ℕ) (v : ℚ) : ℕ → ℚ :=
  fun i => if i = c then out i + v else out i

/-- A k-long dot product (the scalar-prefix plus SIMD-fold dot products of
block_ffm.rs, which compute the same sum in exact arithmetic). -/
def dotk (f g : ℕ → ℚ) (a b k : ℕ) : ℚ :=
  ∑ t ∈ Finset.range k, f (a + t) * g (b + t)

/-- The while loop over one field's features in BlockFFM::forward
(block_ffm.rs lines 447-502): consumes features while their
contra_field_index equals `F * ffm_k`; the first overwrites the field's
contra region [F*k*m, F*k*m + k*m), later ones accumulate; each feature
also subtracts its self-interaction correction
`norm(w[hash+F*k..+k])^2 * 0.5 * value^2` from output cell
`(contra_field_index / k) * (m + 1)`. -/
def ffmFieldScan (w : ℕ → ℚ) (k m F : ℕ) :
    List HashAndValueAndSeq → ℕ → (ℕ → ℚ) → (ℕ → ℚ) →
    (List HashAndValueAndSeq × (ℕ → ℚ) × (ℕ → ℚ))
  | [], _, contra, out => ([], contra, out)
  | f :: rest, fnum, contra, out =>
    if f.contra_field_index = F * k then
      let contra2 := ffmFeatureWrite w (F * k * m) (k * m) (fnum == 0) f.hash f.value contra
      let cell := f.contra_field_index / k * (m + 1)
      let out2 := addCell out cell
        (-(dotk w w (f.hash + F * k) (f.hash + F * k) k * (1 / 2) * f.value * f.value))
      ffmFieldScan w k m F rest (fnum + 1) contra2 out2
    else (f :: rest, contra, out)

/-- The field loop of BlockFFM::forward (block_ffm.rs lines 427-503):
fields with no remaining features (buffer exhausted, or the next feature
belongs to a later field) zero their contra region; a field whose features
are next consumes them through `ffmFieldScan`; a buffer head with a
SMALLER contra_field_index (impossible for a sorted buffer) leaves the
field's region untouched, i.e. uninitialized. -/
def ffmFields (w : ℕ → ℚ) (k m : ℕ) :
    ℕ → ℕ → List HashAndValueAndSeq → (ℕ → ℚ) → (ℕ → ℚ) →
    ((ℕ → ℚ) × (ℕ → ℚ))
  | 0, _, _, contra, out => (contra, out)
  | count + 1, F, rest, contra, out =>
    match rest with
    | [] => ffmFields w k m count (F + 1) []
        (regionZero contra (F * k * m) (k * m)) out
    | f :: _ =>
      if f.contra_field_index > F * k then
        ffmFields w k m count (F + 1) rest
          (regionZero contra (F * k * m) (k * m)) out
      else if f.contra_field_index = F * k then
        let s := ffmFieldScan w k m F rest 0 contra out
        ffmFields w k m count (F + 1) s.1 s.2.1 s.2.2
      else
        ffmFields w k m count (F + 1) rest contra out

/-- The inner pair loop of BlockFFM::forward (block_ffm.rs lines 524-550):
for each `f2 > f1` the half dot product of contra[f1][f2] against
contra[f2][f1] is added to both output cells (f1,f2) and (f2,f1). -/
def ffmPairsF2 (contra : ℕ → ℚ) (k m fel f1 : ℕ) :
    ℕ → ℕ → (ℕ → ℚ) → (ℕ → ℚ)
  | 0, _, out => out
  | fuel + 1, f2, out =>
    let c := dotk contra contra (f1 * fel + f2 * k) (f2 * fel + f1 * k) k * (1 / 2)
    ffmPairsF2 contra k m fel f1 fuel (f2 + 1)
      (addCell (addCell out (f1 * m + f2) c) (f2 * m + f1) c)

/-- The outer pair loop of BlockFFM::forward (block_ffm.rs lines 509-556):
each field adds half the squared norm of its diagonal contra slice to its
diagonal output cell, then runs the inner pair loop. -/
def ffmPairsF1 (contra : ℕ → ℚ) (k m fel : ℕ) :
    ℕ → ℕ → (ℕ → ℚ) → (ℕ → ℚ)
  | 0, _, out => out
  | fuel + 1, f1, out =>
    let v := dotk contra contra (f1 * fel + f1 * k) (f1 * fel + f1 * k) k * (1 / 2)
    let out2 := ffmPairsF2 contra k m fel f1 (m - (f1 + 1)) (f1 + 1)
      (addCell out (f1 * m + f1) v)
    ffmPairsF1 contra k m fel fuel (f1 + 1) out2

/-- BlockFFM::forward (block_ffm.rs lines 379-559): the output region is
zero-filled, the contra construction runs over all m fields (with the
uninitialized stack scratch modelled by the arbitrary `contra0`), then the
self-interaction and pair loops accumulate the output cells.  The
embedding fixes `field_embedding_len = k * m` with
`m = ffm_fields_count`, which the model requires to equal the configured
field count. -/
def ffmForward (w : ℕ → ℚ) (k m : ℕ) (buf : List HashAndValueAndSeq)
    (contra0 : ℕ → ℚ) : ℕ → ℚ :=
  let fel := k * m
  let s := ffmFields w k m m 0 buf contra0 (fun _ => 0)
  ffmPairsF1 s.1 k m fel m 0 s.2

/-- Default feature for positional indexing into the buffer. -/
def featD : HashAndValueAndSeq := ⟨0, 0, 0⟩

/-- One u32 cell of the parser output buffer (parser.rs): either a plain
u32 (hashes, descriptors, the length, the label) or the bits of an f32
(weights, parsed float values, the example importance).  The f32 bit-pun
of the source is modelled by the sum. -/
inductive Cell
  | u (n : ℕ)
  | f (v : FVal)
deriving DecidableEq, Repr

/-- IS_NOT_SINGLE_MASK of parser.rs: `1u32 << 31`. -/
def IS_NOT_SINGLE_MASK : ℕ := 2 ^ 31

/-- NO_FEATURES of parser.rs (= IS_NOT_SINGLE_MASK). -/
def NO_FEATURES : ℕ := 2 ^ 31

/-- NO_LABEL of parser.rs: 0xff. -/
def NO_LABEL : ℕ := 0xff

/-- Namespace formats of vwmap.rs (declared in the namespace CSV). -/
inductive NamespaceFormat
  | Categorical
  | F32
deriving DecidableEq, Repr

/-- A namespace descriptor with its murmur hash seed
(radix_tree.rs NamespaceDescriptorWithHash). -/
structure NsDescWithHash where
  namespace_index : ℕ
  namespace_format : NamespaceFormat
  hash_seed : ℕ
deriving DecidableEq, Repr

/-- The external collaborators of the parser, as parameters of the
embedding: `lookup` is the radix tree over the declared namespace names
(vwmap.rs and radix_tree.rs are not under src/), `parseF32` is Rust
`str::parse::<f32>` (`none` = parse failure, `some none` = a parsed NaN),
`murmur` is fasthash murmur3 `hash32_with_seed`, and `skipPref` is
`vw_source.namespace_skip_prefix`. -/
structure ParserEnv where
  numNamespaces : ℕ
  lookup : List ℕ → Option NsDescWithHash
  parseF32 : List ℕ → Option FVal
  murmur : List ℕ → ℕ → ℕ
  skipPref : ℕ

/-- Parser errors: the two out-of-band command signals and descriptive IO
errors (parser.rs FlushCommand, HogwildLoadCommand, IOError).  The source
formats the offending token into the message; the embedding keeps the
static message text. -/
inductive PErr
  | flush
  | hogwildLoad (path : List ℕ)
  | ioerr (msg : String)
deriving DecidableEq, Repr

/-- Byte `i` of the read buffer (reads of the trailing newline byte at
index rowlen are in range in the source; reads past the buffer do not
occur on the paths the loops take). -/
def byteAt (b : List ℕ) (i : ℕ) : ℕ := b.getD i 0

/-- Bytes `[i, j)` of the read buffer. -/
def bslice (b : List ℕ) (i j : ℕ) : List ℕ := (b.take j).drop i

/-- VowpalParser::parse_float_or_error (parser.rs lines 107-138): the
4-byte token NONE parses to NaN; otherwise Rust float parsing, with a
descriptive error on failure. -/
def parseFloatOrError (env : ParserEnv) (bytes : List ℕ) (errStr : String) :
    Except PErr FVal :=
  if bytes = [0x4e, 0x4f, 0x4e, 0x45] then .ok none
  else
    match env.parseF32 bytes with
    | some v => .ok v
    | none => .error (.ioerr errStr)

/-- A source scan loop `while p[i] != stop && i < rowlen { i += 1 }` (the
byte is tested before the bound, exactly as in the source). -/
def scanUntil (b : List ℕ) (rowlen stop : ℕ) : ℕ → ℕ → ℕ
  | 0, i => i
  | fuel + 1, i =>
    if byteAt b i ≠ stop ∧ i < rowlen then scanUntil b rowlen stop fuel (i + 1) else i

/-- The source scan loop `while p[i] == 0x20 && i < rowlen { i += 1 }`. -/
def scanSpaces (b : List ℕ) (rowlen : ℕ) : ℕ → ℕ → ℕ
  | 0, i => i
  | fuel + 1, i =>
    if byteAt b i = 0x20 ∧ i < rowlen then scanSpaces b rowlen fuel (i + 1) else i

/-- The token scan `while p[i] != 0x20 && p[i] != 0x3a && i < rowlen`. -/
def scanTok (b : List ℕ) (rowlen : ℕ) : ℕ → ℕ → ℕ
  | 0, i => i
  | fuel + 1, i =>
    if byteAt b i ≠ 0x20 ∧ byteAt b i ≠ 0x3a ∧ i < rowlen then
      scanTok b rowlen fuel (i + 1)
    else i

/-- VowpalParser::parse_cmd (parser.rs lines 141-156): split
`[i, rowlen)` into the maximal runs of non-space bytes. -/
def parseCmd (b : List ℕ) (rowlen : ℕ) : ℕ → ℕ → List (List ℕ)
  | 0, _ => []
  | fuel + 1, i =>
    if i < rowlen then
      let j := scanUntil b rowlen 0x20 (rowlen + 1) i
      let j2 := scanSpaces b rowlen (rowlen + 1) j
      bslice b i j :: parseCmd b rowlen fuel j2
    else []

/-- The namespace-scan state of next_vowpal_to_size (parser.rs lines
316-321): hash seed, descriptor-cell offset, format, namespace weight,
number of features seen in the current namespace, and
bufpos_namespace_start. -/
structure NsState where
  seed : ℕ
  offset : ℕ
  format : NamespaceFormat
  weight : FVal
  count : ℕ
  nsStart : ℕ
deriving Repr

/-- The feature branch of the namespace loop (parser.rs lines 380-453):
`nameTok` is the token up to `:` or space, `suffixTok` the bytes after the
`:` (`none` when the token carries no `:weight` suffix).  The feature-weight resolution (parser.rs lines
387-396): parse the suffix, defaulting to 1.0. -/
def featWeightOf (env : ParserEnv) (suffixTok : Option (List ℕ)) :
    Except PErr FVal :=
  match suffixTok with
  | some s => parseFloatOrError env s "Failed parsing feature weight"
  | none => .ok (some 1)

/-- The float-value parse of an F32 feature token (parser.rs lines
427-438): the bytes after namespace_skip_prefix, or NaN when empty. -/
def floatValOf (env : ParserEnv) (nameTok : List ℕ) : Except PErr FVal :=
  if nameTok.drop env.skipPref ≠ [] then
    parseFloatOrError env (nameTok.drop env.skipPref)
      "Failed parsing feature value to float (for float namespace)"
  else .ok none

/-- The feature branch of the namespace loop (parser.rs lines 380-453):
the three source cases are the in-place single categorical feature with
weight 1; otherwise promotion of an earlier in-place feature if needed,
then pushing (hash, weight-or-float) with the F32 weight-product check,
and rewriting the descriptor cell.  Returns the new output buffer and
feature count. -/
def processFeature (env : ParserEnv) (st : NsState) (nameTok : List ℕ)
    (suffixTok : Option (List ℕ)) (out : List Cell) :
    Except PErr (List Cell × ℕ) := do
  let h := env.murmur nameTok st.seed % 2 ^ 31
  let feature_weight ← featWeightOf env suffixTok
  if st.count = 0 ∧ st.format = NamespaceFormat.Categorical ∧
      st.weight = some 1 ∧ feature_weight = some 1 then
    pure (out.set st.offset (Cell.u h), st.count + 1)
  else
    let feature_output := out.getD st.offset (Cell.u 0)
    let isSingle : Bool :=
      match feature_output with
      | Cell.u n => n < 2 ^ 31
      | Cell.f _ => false
    let out1 :=
      if st.count = 1 ∧ isSingle then out ++ [feature_output, Cell.f (some 1)]
      else out
    let out2 := out1 ++ [Cell.u h]
    if st.format = NamespaceFormat.F32 then
      let float_value ← floatValOf env nameTok
      let out3 := out2 ++ [Cell.f float_value]
      if fmul st.weight feature_weight ≠ some 1 then
        Except.error (.ioerr "Namespaces that are f32 can not have weight attached")
      else
        pure (out3.set st.offset
          (Cell.u (IS_NOT_SINGLE_MASK ||| (st.nsStart * 2 ^ 16 + out3.length))),
          st.count + 1)
    else
      let out3 := out2 ++ [Cell.f (fmul st.weight feature_weight)]
      pure (out3.set st.offset
        (Cell.u (IS_NOT_SINGLE_MASK ||| (st.nsStart * 2 ^ 16 + out3.length))),
        st.count + 1)

/-- The namespace loop of next_vowpal_to_size (parser.rs lines 322-455):
skip spaces, scan the token and its optional `:suffix`, then either switch
namespace (a token starting with `|`: parse the namespace weight, look the
name up, reset the per-namespace state) or process a feature.  One fuel
unit per iteration; the position strictly grows so `rowlen + 1` fuel
always suffices. -/
def vwLoop (env : ParserEnv) (b : List ℕ) (rowlen : ℕ) :
    ℕ → ℕ → NsState → List Cell → Except PErr (List Cell)
  | 0, _, _, out => .ok out
  | fuel + 1, i, st, out =>
    if i < rowlen then do
      let i1 := scanSpaces b rowlen (rowlen + 1) i
      let i_start := i1
      let i_end_first_part := scanTok b rowlen (rowlen + 1) i1
      let i_end := scanUntil b rowlen 0x20 (rowlen + 1) i_end_first_part
      if byteAt b i_start = 0x7c then
        let ns_weight ←
          if i_end_first_part ≠ i_end then
            parseFloatOrError env (bslice b (i_end_first_part + 1) i_end)
              "Failed parsing namespace weight"
          else pure (some 1 : FVal)
        match env.lookup (bslice b (i_start + 1) i_end_first_part) with
        | none =>
          Except.error (.ioerr "Feature name was not predeclared in vw_namespace_map.csv")
        | some desc =>
          vwLoop env b rowlen fuel (i_end + 1)
            { seed := desc.hash_seed
              offset := desc.namespace_index * 1 + 3
              format := desc.namespace_format
              weight := ns_weight
              count := 0
              nsStart := out.length } out
      else
        let suffixTok : Option (List ℕ) :=
          if i_end_first_part ≠ i_end then
            some (bslice b (i_end_first_part + 1) i_end)
          else none
        let r ← processFeature env st (bslice b i_start i_end_first_part) suffixTok out
        vwLoop env b rowlen fuel (i_end + 1) { st with count := r.2 } r.1
    else .ok out

/-- The label-weight / example-importance stage of next_vowpal_to_size
(parser.rs lines 270-310): a no-label example gets importance 1.0;
otherwise the scan skips the label token and following spaces; a `|` next
means the importance token is absent and defaults to 1.0; otherwise the
token is parsed, rejected when negative, and stored.  Returns the buffer
with cell 2 written and the resume position. -/
def impStage (env : ParserEnv) (b : List ℕ) (rowlen : ℕ) (out1 : List Cell) :
    Except PErr (List Cell × ℕ) :=
  if out1.getD 1 (Cell.u 0) = Cell.u NO_LABEL then
    .ok (out1.set 2 (Cell.f (some 1)), 0)
  else do
    let i1 := scanUntil b rowlen 0x20 (rowlen + 1) 0
    let i2 := scanSpaces b rowlen (rowlen + 1) i1
    if byteAt b i2 = 0x7c then
      pure (out1.set 2 (Cell.f (some 1)), i2)
    else do
      let i3 := scanUntil b rowlen 0x20 (rowlen + 1) i2
      let importance ← parseFloatOrError env (bslice b i2 i3)
        "Failed parsing example importance"
      let isNeg := match importance with
        | some q => decide (q < 0)
        | none => false
      if isNeg then
        Except.error (.ioerr "Example importance cannot be negative")
      else
        pure (out1.set 2 (Cell.f importance), i3)

/-- VowpalParser::next_vowpal_to_size (parser.rs lines 214-461) on a read
buffer `b` (the line including its trailing newline byte).  The output
buffer starts as `num_namespaces + 3` cells of NO_FEATURES; the first
token decides label / flush / hogwild_load / error; an example-importance
token is parsed when present (with the negative check), defaulting to
1.0; then the scan jumps to the first `|` and the namespace loop runs;
finally cell 0 receives the output length. -/
def nextVowpal (env : ParserEnv) (b : List ℕ) : Except PErr (List Cell) := do
  let size := b.length
  let rowlen := size - 1
  let out0 : List Cell := List.replicate (env.numNamespaces * 1 + 3) (Cell.u NO_FEATURES)
  let labelCell : Option ℕ ←
    if byteAt b 0 = 0x31 then pure (some 1)
    else if byteAt b 0 = 0x2d then pure (some 0)
    else if byteAt b 0 = 0x7c then pure (some NO_LABEL)
    else if size ≥ 5 ∧ bslice b 0 5 = [0x66, 0x6c, 0x75, 0x73, 0x68] then
      Except.error PErr.flush
    else if size ≥ 13 then
      let vecs := parseCmd b size (size + 1) 0
      if vecs.length = 2 then
        if vecs.getD 0 [] = [0x68, 0x6f, 0x67, 0x77, 0x69, 0x6c, 0x64, 0x5f,
            0x6c, 0x6f, 0x61, 0x64] then
          Except.error (PErr.hogwildLoad (vecs.getD 1 []))
        else pure (none : Option ℕ)
      else Except.error (.ioerr "Cannot parse an example")
    else Except.error (.ioerr "Cannot parse an example")
  let out1 :=
    match labelCell with
    | some v => out0.set 1 (Cell.u v)
    | none => out0
  let s ← impStage env b rowlen out1
  let iBar := scanUntil b rowlen 0x7c (rowlen + 1) s.2
  let st0 : NsState :=
    { seed := 0, offset := 3, format := NamespaceFormat.Categorical
      weight := some 1, count := 0, nsStart := 0 }
  let outF ← vwLoop env b rowlen (rowlen + 1) iBar st0 s.1
  pure (outF.set 0 (Cell.u outF.length))

/-- Output cell (i,j) exactly as claim C1 words it (spec §8 invariant 1):
the sum over all features `p` of field i and `q` of field j of
`value_p * value_q * <w[hash_p + j*k ..], w[hash_q + i*k ..]>`, with the
pair `p = q` excluded whenever `i = j`.  Written from the spec, to compare
with `ffmForward` from the source. -/
def ffmSpecCell (w : ℕ → ℚ) (k : ℕ) (buf : List HashAndValueAndSeq)
    (i j : ℕ) : ℚ :=
  ∑ p ∈ Finset.range buf.length, ∑ q ∈ Finset.range buf.length,
    if (buf.getD p featD).contra_field_index = i * k ∧
        (buf.getD q featD).contra_field_index = j * k ∧ ¬(i = j ∧ p = q) then
      (buf.getD p featD).value * (buf.getD q featD).value *
        dotk w w ((buf.getD p featD).hash + j * k) ((buf.getD q featD).hash + i * k) k
    else 0

/-- Modelled from the spec: the per-example training driver (main loop,
not under src/).  The spec gives each example "a label in {0, 1} or no
label"; an example with no label is only scored (the prediction-only
forward path, which reads weights and writes tape cells), so the weight
tables after the example are the tables from before it; a labeled example
runs the full training pass, whose weight result is `trainedW`. -/
def driverWeightsAfter (label : Option ℚ) (w trainedW : ℕ → ℝ) : ℕ → ℝ :=
  if label = none then w else trainedW

/-- A concrete parser environment for the C8 instances: namespace B (byte
0x42) is declared F32 with index 1 out of 3 namespaces; the float parser
knows the tokens 1 and 3. -/
def envC8 : ParserEnv :=
  { numNamespaces := 3
    lookup := fun s => if s = [0x42] then some ⟨1, NamespaceFormat.F32, 7⟩ else none
    parseF32 := fun s =>
      if s = [0x33] then some (some 3)
      else if s = [0x31] then some (some 1)
      else if s = [0x32] then some (some 2)
      else if s = [0x30, 0x2e, 0x35] then some (some (1 / 2)) else none
    murmur := fun _ _ => 5
    skipPref := 0 }

/-- The input line `-1 |B 3:1\n` as bytes: namespace B is F32 and the
feature token 3 carries the weight suffix `:1`. -/
def lineC8 : List ℕ := [0x2d, 0x31, 0x20, 0x7c, 0x42, 0x20, 0x33, 0x3a, 0x31, 0x0a]

/-- The input line `-1 |B 3:3\n` as bytes: an F32 feature with weight
suffix 3 (the repo test expects an error here). -/
def lineC8b : List ℕ := [0x2d, 0x31, 0x20, 0x7c, 0x42, 0x20, 0x33, 0x3a, 0x33, 0x0a]

/-- The input line `-1 |B:3 3\n` as bytes: an F32 namespace weight 3
(the repo test expects an error here). -/
def lineC8c : List ℕ := [0x2d, 0x31, 0x20, 0x7c, 0x42, 0x3a, 0x33, 0x20, 0x33, 0x0a]

/-- The input line `-1 |B:2 3:0.5\n` as bytes: both a namespace weight
suffix and a feature weight suffix, whose product is exactly 1. -/
def lineC8d : List ℕ :=
  [0x2d, 0x31, 0x20, 0x7c, 0x42, 0x3a, 0x32, 0x20, 0x33, 0x3a, 0x30, 0x2e, 0x35, 0x0a]

/-- A concrete parser environment for the C9 witness: namespace A
declared categorical; the float parser knows the token `-0.1`. -/
def envC9 : ParserEnv :=
  { numNamespaces := 3
    lookup := fun s => if s = [0x41] then some ⟨0, NamespaceFormat.Categorical, 3⟩ else none
    parseF32 := fun s => if s = [0x2d, 0x30, 0x2e, 0x31] then some (some (-1 / 10)) else none
    murmur := fun _ _ => 5
    skipPref := 0 }

/-- The input line `1 -0.1 |A a\n` as bytes: negative example
importance. -/
def lineC9 : List ℕ :=
  [0x31, 0x20, 0x2d, 0x30, 0x2e, 0x31, 0x20, 0x7c, 0x41, 0x20, 0x61, 0x0a]

/-- The input line `1 |A a\n` as bytes: no importance token. -/
def lineC9b : List ℕ := [0x31, 0x20, 0x7c, 0x41, 0x20, 0x61, 0x0a]

/-- The buffer and count `processFeature` yields for an accepted F32
feature: possible promotion of an earlier in-place feature, then the hash
cell and the parsed-float cell, then the descriptor-cell rewrite. -/
def processFeatureF32Ok (env : ParserEnv) (st : NsState) (nameTok : List ℕ)
    (fv : FVal) (out : List Cell) : List Cell × ℕ :=
  let h := env.murmur nameTok st.seed % 2 ^ 31
  let feature_output := out.getD st.offset (Cell.u 0)
  let isSingle : Bool :=
    match feature_output with
    | Cell.u n => n < 2 ^ 31
    | Cell.f _ => false
  let out1 :=
    if st.count = 1 ∧ isSingle then out ++ [feature_output, Cell.f (some 1)]
    else out
  let out3 := (out1 ++ [Cell.u h]) ++ [Cell.f fv]
  (out3.set st.offset
    (Cell.u (IS_NOT_SINGLE_MASK ||| (st.nsStart * 2 ^ 16 + out3.length))),
   st.count + 1)

/-- The self-interaction correction one feature writes into the output
during the forward field scan, as a function of the queried cell
(block_ffm.rs lines 487-499: cell `contra_field_index / k * (m + 1)`
receives `-(norm * 0.5 * value^2)`). -/
def corrOf (w : ℕ → ℚ) (k m : ℕ) (x : HashAndValueAndSeq) (c : ℕ) : ℚ :=
  if c = x.contra_field_index / k * (m + 1) then
    -(dotk w w (x.hash + x.contra_field_index) (x.hash + x.contra_field_index) k * (1 / 2) *
      x.value * x.value)
  else 0

/-- One coordinate of a field's contra slice: the sum of the field's
features' value-weighted embedding entries. -/
def fieldSlice (w : ℕ → ℚ) (xs : List HashAndValueAndSeq) (d : ℕ) : ℚ :=
  (xs.map (fun x => x.value * w (x.hash + d))).sum

/-- The contribution the pair loops write into output cell `c` for the
diagonal of field `g` (block_ffm.rs lines 512-521). -/
def ffmDiagTerm (contra : ℕ → ℚ) (k m fel g c : ℕ) : ℚ :=
  if c = g * m + g then
    dotk contra contra (g * fel + g * k) (g * fel + g * k) k * (1 / 2)
  else 0

/-- The contribution the inner pair loop writes into output cell `c` for
the field pair `(g, g+1+e)` (block_ffm.rs lines 524-550). -/
def ffmPairTerm (contra : ℕ → ℚ) (k m fel g e c : ℕ) : ℚ :=
  (if c = g * m + (g + 1 + e) then
    dotk contra contra (g * fel + (g + 1 + e) * k) ((g + 1 + e) * fel + g * k) k * (1 / 2)
  else 0) +
  (if c = (g + 1 + e) * m + g then
    dotk contra contra (g * fel + (g + 1 + e) * k) ((g + 1 + e) * fel + g * k) k * (1 / 2)
  else 0)

/-! ## Theorems -/

theorem logistic_mono {x y : ℝ} (h : x ≤ y) : logistic x ≤ logistic y := by
  unfold logistic
  have hy : (0 : ℝ) < 1 + Real.exp (-y) := by positivity
  have hxy : 1 + Real.exp (-y) ≤ 1 + Real.exp (-x) := by
    have := Real.exp_le_exp.mpr (neg_le_neg h)
    linarith
  exact inv_anti₀ hy hxy

/-- C2: for every input region of the loss block, a NaN `wsum` yields the
prediction `logistic 0`, `wsum < -50` yields `logistic (-50)`,
`wsum > 50` yields `logistic 50`, and otherwise the prediction is
`logistic wsum`; the training path emits the same prediction as the
prediction-only path, and every prediction lies in
[logistic (-50), logistic 50]. -/
theorem C2_loss_prediction_clamping :
    ∀ (inputs : List FVal) (label imp : ℝ),
      (fsum inputs = none → bsForward inputs = logistic 0) ∧
      (∀ w : ℚ, fsum inputs = some w → w < -50 → bsForward inputs = logistic (-50)) ∧
      (∀ w : ℚ, fsum inputs = some w → 50 < w → bsForward inputs = logistic 50) ∧
      (∀ w : ℚ, fsum inputs = some w → -50 ≤ w → w ≤ 50 →
        bsForward inputs = logistic (w : ℝ)) ∧
      (bsForwardBackward inputs label imp).1 = bsForward inputs ∧
      logistic (-50) ≤ bsForward inputs ∧ bsForward inputs ≤ logistic 50 := by
  intro inputs label imp
  cases h : fsum inputs with
  | none =>
    simp only [bsForward, bsForwardBackward, h]
    refine ⟨fun _ => by trivial, fun w hw => by simp at hw, fun w hw => by simp at hw,
      fun w hw => by simp at hw, by trivial, ?_, ?_⟩
    · exact logistic_mono (by norm_num)
    · exact logistic_mono (by norm_num)
  | some w =>
    by_cases h1 : w < -50
    · simp only [bsForward, bsForwardBackward, h, if_pos h1]
      refine ⟨fun hn => by simp at hn, fun w' hw' _ => by simp_all,
        fun w' hw' hgt => ?_, fun w' hw' hle _ => ?_, by trivial, le_refl _,
        logistic_mono (by norm_num)⟩
      · exfalso
        have : w = w' := by simpa using hw'
        subst this
        exact absurd h1 (by linarith)
      · exfalso
        have : w = w' := by simpa using hw'
        subst this
        exact absurd h1 (by linarith)
    · by_cases h2 : w > 50
      · simp only [bsForward, bsForwardBackward, h, if_neg h1, if_pos h2]
        refine ⟨fun hn => by simp at hn, fun w' hw' hlt => ?_,
          fun w' hw' _ => by trivial, fun w' hw' _ hle => ?_, by trivial,
          logistic_mono (by norm_num), le_refl _⟩
        · exfalso
          have : w = w' := by simpa using hw'
          subst this
          exact absurd h2 (by linarith)
        · exfalso
          have : w = w' := by simpa using hw'
          subst this
          exact absurd h2 (by linarith)
      · simp only [bsForward, bsForwardBackward, h, if_neg h1, if_neg h2]
        have hge : (-50 : ℚ) ≤ w := by linarith [not_lt.mp h1]
        have hle : w ≤ (50 : ℚ) := by linarith [not_lt.mp h2]
        refine ⟨fun hn => by simp at hn, fun w' hw' hlt => ?_,
          fun w' hw' hgt => ?_, fun w' hw' _ _ => ?_, by trivial, ?_, ?_⟩
        · exfalso
          have : w = w' := by simpa using hw'
          subst this
          exact absurd hlt (not_lt.mpr hge)
        · exfalso
          have : w = w' := by simpa using hw'
          subst this
          exact absurd hgt (not_lt.mpr hle)
        · have : w = w' := by simpa using hw'
          subst this
          rfl
        · exact logistic_mono (by exact_mod_cast hge)
        · exact logistic_mono (by exact_mod_cast hle)

/-- C3: on the loss backward pass, a finite `wsum` in [-50, 50] yields the
general gradient `-(label - prediction) * example_importance`; the NaN and
clamped cases yield 0; and the whole input region is overwritten with that
one general-gradient scalar. -/
theorem C3_loss_gradient_seeding :
    ∀ (inputs : List FVal) (label imp : ℝ),
      (∀ w : ℚ, fsum inputs = some w → -50 ≤ w → w ≤ 50 →
        (bsForwardBackward inputs label imp).2.1 =
          -(label - (bsForwardBackward inputs label imp).1) * imp) ∧
      (fsum inputs = none → (bsForwardBackward inputs label imp).2.1 = 0) ∧
      (∀ w : ℚ, fsum inputs = some w → w < -50 ∨ 50 < w →
        (bsForwardBackward inputs label imp).2.1 = 0) ∧
      (bsForwardBackward inputs label imp).2.2 =
        List.replicate inputs.length ((bsForwardBackward inputs label imp).2.1) := by
  intro inputs label imp
  cases h : fsum inputs with
  | none =>
    simp only [bsForwardBackward, h]
    exact ⟨fun w hw => by simp at hw, fun _ => by trivial, fun w hw => by simp at hw, by trivial⟩
  | some w =>
    by_cases h1 : w < -50
    · simp only [bsForwardBackward, h, if_pos h1]
      refine ⟨fun w' hw' hge _ => ?_, fun hn => by simp at hn, fun _ _ _ => by trivial, by trivial⟩
      exfalso
      have : w = w' := by simpa using hw'
      subst this
      exact absurd h1 (not_lt.mpr hge)
    · by_cases h2 : w > 50
      · simp only [bsForwardBackward, h, if_neg h1, if_pos h2]
        refine ⟨fun w' hw' _ hle => ?_, fun hn => by simp at hn, fun _ _ _ => by trivial, by trivial⟩
        exfalso
        have : w = w' := by simpa using hw'
        subst this
        exact absurd h2 (not_lt.mpr hle)
      · simp only [bsForwardBackward, h, if_neg h1, if_neg h2]
        exact ⟨fun w' hw' _ _ => by trivial, fun hn => by simp at hn,
          fun w' hw' hor => by
            have : w = w' := by simpa using hw'
            subst this
            rcases hor with hlt | hgt
            · exact absurd hlt h1
            · exact absurd hgt h2,
          by trivial⟩

/-- C7 (amended): the normalize divisor is the square root of
(sum over the region of `x² − 2·meansq·x + meansq²`, plus ε = 1e-2, the ε
added to the sum BEFORE dividing by the region length) divided by the
length; the forward half of forward_backward writes `(x − mean)` times the
inverse of this square root, and the backward pass multiplies each
incoming gradient by the same inverse scale. -/
theorem C7_normalize_variance_proxy :
    ∀ xs gs : List ℝ,
      normDivisor xs =
        Real.sqrt (((xs.map (fun x => x * x - 2 * (normMean xs * normMean xs) * x +
          (normMean xs * normMean xs) * (normMean xs * normMean xs))).sum + normEPS) /
          xs.length) ∧
      (normForwardBackward xs gs).1 =
        xs.map (fun x => (x - normMean xs) * (1 / normDivisor xs)) ∧
      (normForwardBackward xs gs).2 = gs.map (fun g => g * (1 / normDivisor xs)) := by
  intro xs gs
  have hf : (fun x : ℝ => (normMean xs * normMean xs - x) * (normMean xs * normMean xs - x))
      = fun x : ℝ => x * x - 2 * (normMean xs * normMean xs) * x +
          (normMean xs * normMean xs) * (normMean xs * normMean xs) := by
    funext x; ring
  refine ⟨?_, rfl, rfl⟩
  simp only [normDivisor]
  rw [hf]

/-- C7 counterexample: on the region [0, 0] the source divisor is
√((0 + ε)/2) = √(1/200), while the divisor as the claim words it (ε added
to the mean) is √(0/2 + ε) = √(1/100); they differ. -/
theorem C7_counterexample : normDivisor [0, 0] ≠ claimDivisorC7 [0, 0] := by
  have h0 : normMean [0, 0] = 0 := by simp [normMean]
  have e1 : ((([0, 0] : List ℝ).map (fun x =>
        (normMean [0, 0] * normMean [0, 0] - x) *
        (normMean [0, 0] * normMean [0, 0] - x))).sum + normEPS) /
        (([0, 0] : List ℝ).length : ℝ) = 1 / 200 := by
    simp [h0, normEPS]
    norm_num
  have h1 : normDivisor [0, 0] = Real.sqrt (1 / 200) := congrArg Real.sqrt e1
  have e2 : (([0, 0] : List ℝ).map (fun x =>
        x * x - 2 * (normMean [0, 0] * normMean [0, 0]) * x +
        (normMean [0, 0] * normMean [0, 0]) * (normMean [0, 0] * normMean [0, 0]))).sum /
        (([0, 0] : List ℝ).length : ℝ) + normEPS = 1 / 100 := by
    simp [h0, normEPS]
  have h2 : claimDivisorC7 [0, 0] = Real.sqrt (1 / 100) := congrArg Real.sqrt e2
  rw [h1, h2]
  have hlt := Real.sqrt_lt_sqrt (by norm_num : (0:ℝ) ≤ 1 / 200)
    (by norm_num : (1:ℝ) / 200 < 1 / 100)
  exact ne_of_lt hlt

/-- C10 (amended): the prediction-only forward of the normalize block
scales each input by the inverse divisor WITHOUT subtracting the mean,
while the forward half of forward_backward subtracts the mean first; the
two paths agree exactly on inputs whose mean is zero. -/
theorem C10_normalize_forward_consistency :
    ∀ xs gs : List ℝ,
      normInternalForward xs = xs.map (fun x => x * (1 / normDivisor xs)) ∧
      (normForwardBackward xs gs).1 =
        xs.map (fun x => (x - normMean xs) * (1 / normDivisor xs)) ∧
      (normMean xs = 0 → normInternalForward xs = (normForwardBackward xs gs).1) := by
  intro xs gs
  refine ⟨rfl, rfl, fun h0 => ?_⟩
  show xs.map _ = xs.map _
  apply List.map_congr_left
  intro x _
  rw [h0, sub_zero]

/-- C10 counterexample: on the one-cell region [1] the training-path
forward writes (1 − mean) * inv = 0 while the prediction-path forward
writes 1 * inv ≠ 0. -/
theorem C10_counterexample :
    normInternalForward [1] ≠ (normForwardBackward [1] [0]).1 := by
  have hmean : normMean [1] = 1 := by simp [normMean]
  have hfb : (normForwardBackward [1] [0]).1 = [0] := by
    simp [normForwardBackward, hmean]
  have hint : normInternalForward [1] = [1 / normDivisor [1]] := by
    simp [normInternalForward]
  rw [hfb, hint]
  have ed : ((([1] : List ℝ).map (fun x =>
        (normMean [1] * normMean [1] - x) * (normMean [1] * normMean [1] - x))).sum +
        normEPS) / (([1] : List ℝ).length : ℝ) = 1 / 100 := by
    simp [hmean, normEPS]
  have hd : normDivisor [1] = Real.sqrt (1 / 100) := congrArg Real.sqrt ed
  have hpos : 0 < normDivisor [1] := by
    rw [hd]; exact Real.sqrt_pos.mpr (by norm_num)
  simp only [ne_eq, List.cons.injEq, and_true]
  exact one_div_ne_zero (ne_of_gt hpos)

/-- C4 (amended): FFM weight initialization is a pure function of the
configuration (merand48 seeded by weight index), so two runs agree bit
for bit; the neuron-layer initialization samples its matrix cells from a
thread RNG, so two runs agree for every pair of RNG streams only when the
init type overwrites every sampled cell (InitType::One); with the Random
init type two runs need not agree. -/
theorem C4_init_determinism :
    (∀ (cfg : FfmInitCfg) (w1 w2 : ℕ → ℝ),
      w1 = ffmInitWeight cfg → w2 = ffmInitWeight cfg → w1 = w2) ∧
    (∀ (rng1 rng2 : ℕ → ℝ) (ni nn : ℕ),
      neuronInitWeight rng1 ni nn NeuronInitType.One =
        neuronInitWeight rng2 ni nn NeuronInitType.One) := by
  constructor
  · intro cfg w1 w2 h1 h2; rw [h1, h2]
  · intro rng1 rng2 ni nn
    funext i
    simp only [neuronInitWeight]
    by_cases hb : nn * ni ≤ i ∧ i < nn * ni + nn
    · rw [if_pos hb, if_pos hb]
    · rw [if_neg hb, if_neg hb]
      by_cases h1 : i < (ni + 1) * nn
      · rw [if_pos h1, if_pos h1]
      · rw [if_neg h1, if_neg h1]
        have hno : ¬ i < nn * ni := by
          intro hlt
          apply h1
          have hle : nn * ni ≤ (ni + 1) * nn := by
            rw [Nat.mul_comm nn ni, Nat.succ_mul]
            exact Nat.le_add_right _ _
          exact Nat.lt_of_lt_of_le hlt hle
        rw [if_neg hno, if_neg hno]

/-- C4 counterexample: with the Random init type, one input and one
neuron, the first weight cell is the first thread-RNG draw: the all-zeros
stream and the all-ones stream give different weight tables. -/
theorem C4_counterexample :
    neuronInitWeight (fun _ => 0) 1 1 NeuronInitType.Random 0 ≠
      neuronInitWeight (fun _ => 1) 1 1 NeuronInitType.Random 0 := by
  norm_num [neuronInitWeight]

theorem ffmBwT_zero_weights {σ : Type} (O : Optim σ)
    (hO : ∀ st, (O.calculate_update 0 st).1 = 0) (ld : ℕ → ℝ) :
    ∀ (fuel : ℕ) (w : ℕ → ℝ) (opt : ℕ → σ) (li fi : ℕ),
      (ffmBwT O ld 0 fuel w opt li fi).1 = w := by
  intro fuel
  induction fuel with
  | zero => intro w opt li fi; rfl
  | succ n ih =>
    intro w opt li fi
    simp only [ffmBwT, zero_mul, hO, sub_zero, Function.update_eq_self]
    exact ih _ _ _ _

theorem ffmBwZ_zero_weights {σ : Type} (O : Optim σ)
    (hO : ∀ st, (O.calculate_update 0 st).1 = 0) (ld : ℕ → ℝ) (coff k : ℕ) :
    ∀ (fuel z : ℕ) (st : (ℕ → ℝ) × (ℕ → σ) × ℕ × ℕ),
      (ffmBwZ O ld (fun _ => 0) coff k fuel z st).1 = st.1 := by
  intro fuel
  induction fuel with
  | zero => intro z st; rfl
  | succ n ih =>
    intro z st
    obtain ⟨w, opt, li, fi⟩ := st
    simp only [ffmBwZ]
    rw [ih]
    exact ffmBwT_zero_weights O hO ld k w opt li fi

theorem ffmBackward_zero_weights {σ : Type} (O : Optim σ)
    (hO : ∀ st, (O.calculate_update 0 st).1 = 0) (k m : ℕ) (ld : ℕ → ℝ) :
    ∀ (buf : List HashAndValueAndSeq) (st : (ℕ → ℝ) × (ℕ → σ) × ℕ),
      (ffmBackward O k m ld (fun _ => 0) buf st).1 = st.1 := by
  intro buf
  induction buf with
  | nil => intro st; obtain ⟨w, opt, li⟩ := st; rfl
  | cons f rest ih =>
    intro st
    obtain ⟨w, opt, li⟩ := st
    simp only [ffmBackward]
    rw [ih]
    exact ffmBwZ_zero_weights O hO ld _ k m 0 (w, opt, li, f.hash)

theorem sgd_zero_update (lr : ℝ) :
    ∀ st, ((optimizerSGD lr).calculate_update 0 st).1 = 0 := by
  intro st; simp [optimizerSGD]

theorem adagradFlex_zero_update (lr pt ia : ℝ) :
    ∀ st, ((optimizerAdagradFlex lr pt ia).calculate_update 0 st).1 = 0 := by
  intro st; simp [optimizerAdagradFlex]

theorem adagradLUT_zero_update (lut : ℝ → ℝ) :
    ∀ st, ((optimizerAdagradLUT lut).calculate_update 0 st).1 = 0 := by
  intro st; simp [optimizerAdagradLUT]

theorem neuronBwI_zero_weights {σ : Type} (O : Optim σ)
    (hO : ∀ st, (O.calculate_update 0 st).1 = 0) (x : ℕ → ℝ) (joff : ℕ) :
    ∀ (fuel i : ℕ) (st : (ℕ → ℝ) × (ℕ → σ) × (ℕ → ℝ)),
      (neuronBwI O 0 x joff fuel i st).1 = st.1 := by
  intro fuel
  induction fuel with
  | zero => intro i st; rfl
  | succ n ih =>
    intro i st
    obtain ⟨w, opt, err⟩ := st
    simp only [neuronBwI, zero_mul, hO, sub_zero, Function.update_eq_self]
    exact ih _ _

theorem neuronBwJ_zero_weights {σ : Type} (O : Optim σ)
    (hO : ∀ st, (O.calculate_update 0 st).1 = 0) (x : ℕ → ℝ)
    (ni nn : ℕ) (p : ℚ) (maxn : ℝ) (ex : ℕ)
    (hmn : maxn = 0 ∨ ex % 10 ≠ 0) :
    ∀ (fuel j : ℕ) (st : (ℕ → ℝ) × (ℕ → σ) × (ℕ → ℝ)),
      (neuronBwJ O x (fun _ => 0) ni nn p maxn ex fuel j st).1 = st.1 := by
  intro fuel
  induction fuel with
  | zero => intro j st; rfl
  | succ n ih =>
    intro j st
    obtain ⟨w, opt, err⟩ := st
    by_cases hg : neuronDropGuard p j ex
    · simp only [neuronBwJ, if_pos hg]
      rw [ih]
      have hI := neuronBwI_zero_weights O hO x (j * ni) ni 0 (w, opt, err)
      have hcond : ¬ (maxn ≠ 0 ∧ ex % 10 = 0) := by
        rcases hmn with h | h
        · intro hc; exact hc.1 h
        · intro hc; exact h hc.2
      rw [if_neg hcond]
      simp only [zero_mul, hO, sub_zero, Function.update_eq_self, hI]
    · simp only [neuronBwJ, if_neg hg]
      exact ih _ _

theorem neuronBwI_frame {σ : Type} (O : Optim σ) (g : ℝ) (x : ℕ → ℝ) (joff : ℕ) :
    ∀ (fuel i : ℕ) (st : (ℕ → ℝ) × (ℕ → σ) × (ℕ → ℝ)) (idx : ℕ),
      (idx < joff + i ∨ joff + i + fuel ≤ idx) →
      (neuronBwI O g x joff fuel i st).1 idx = st.1 idx := by
  intro fuel
  induction fuel with
  | zero => intro i st idx _; rfl
  | succ n ih =>
    intro i st idx hidx
    obtain ⟨w, opt, err⟩ := st
    simp only [neuronBwI]
    rw [ih (i + 1) _ idx (by omega)]
    dsimp only
    exact Function.update_noteq (by omega) _ _

theorem neuronMaxNorm_frame (ni : ℕ) (maxn : ℝ) (joff : ℕ) (w : ℕ → ℝ)
    (idx : ℕ) (h : ¬ (joff ≤ idx ∧ idx < joff + ni)) :
    neuronMaxNorm ni maxn joff w idx = w idx := by
  unfold neuronMaxNorm
  split
  · exact if_neg h
  · rfl

theorem neuronBwJ_frame {σ : Type} (O : Optim σ) (x gt : ℕ → ℝ)
    (ni nn : ℕ) (p : ℚ) (maxn : ℝ) (ex : ℕ) :
    ∀ (fuel j0 : ℕ) (st : (ℕ → ℝ) × (ℕ → σ) × (ℕ → ℝ)) (idx : ℕ),
      (∀ j2, j0 ≤ j2 → j2 < j0 + fuel → neuronDropGuard p j2 ex →
        ¬ (j2 * ni ≤ idx ∧ idx < j2 * ni + ni) ∧ idx ≠ ni * nn + j2) →
      (neuronBwJ O x gt ni nn p maxn ex fuel j0 st).1 idx = st.1 idx := by
  intro fuel
  induction fuel with
  | zero => intro j0 st idx _; rfl
  | succ n ih =>
    intro j0 st idx hidx
    obtain ⟨w, opt, err⟩ := st
    by_cases hg : neuronDropGuard p j0 ex
    · simp only [neuronBwJ, if_pos hg]
      rw [ih (j0 + 1) _ idx (fun j2 h1 h2 h3 => hidx j2 (by omega) (by omega) h3)]
      obtain ⟨hrow, hbias⟩ := hidx j0 (le_refl _) (by omega) hg
      have hI : (neuronBwI O (gt j0) x (j0 * ni) ni 0 (w, opt, err)).1 idx = w idx := by
        apply neuronBwI_frame
        omega
      by_cases hc : maxn ≠ 0 ∧ ex % 10 = 0
      · rw [if_pos hc]
        dsimp only
        rw [neuronMaxNorm_frame ni maxn (j0 * ni) _ idx hrow]
        rw [Function.update_noteq hbias]
        exact hI
      · rw [if_neg hc]
        dsimp only
        rw [Function.update_noteq hbias]
        exact hI
    · simp only [neuronBwJ, if_neg hg]
      exact ih (j0 + 1) _ idx (fun j2 h1 h2 h3 => hidx j2 (by omega) (by omega) h3)

/-- C5 (amended): an example with example_importance 0 seeds a zero
general gradient (and a zero gradient in every input-region cell); with a
zero gradient region the FFM backward pass leaves every weight unchanged
under each of the three optimizers, and the neuron-layer backward pass
leaves every weight unchanged PROVIDED the max-norm rescaling does not
run (max_norm disabled, or the example number not a multiple of 10 - with
max-norm active a zero-importance example can still rescale weights); an
example with no label runs the prediction-only path and leaves weights
unchanged. -/
theorem C5_zero_importance_weights_unchanged :
    (∀ (inputs : List FVal) (label : ℝ),
      (bsForwardBackward inputs label 0).2.1 = 0 ∧
      (bsForwardBackward inputs label 0).2.2 = List.replicate inputs.length 0) ∧
    (∀ (lr : ℝ) (k m : ℕ) (ld : ℕ → ℝ) (buf : List HashAndValueAndSeq)
        (w : ℕ → ℝ) (opt : ℕ → Unit) (li : ℕ),
      (ffmBackward (optimizerSGD lr) k m ld (fun _ => 0) buf (w, opt, li)).1 = w) ∧
    (∀ (lr pt ia : ℝ) (k m : ℕ) (ld : ℕ → ℝ) (buf : List HashAndValueAndSeq)
        (w : ℕ → ℝ) (opt : ℕ → ℝ) (li : ℕ),
      (ffmBackward (optimizerAdagradFlex lr pt ia) k m ld (fun _ => 0) buf (w, opt, li)).1 = w) ∧
    (∀ (lut : ℝ → ℝ) (k m : ℕ) (ld : ℕ → ℝ) (buf : List HashAndValueAndSeq)
        (w : ℕ → ℝ) (opt : ℕ → ℝ) (li : ℕ),
      (ffmBackward (optimizerAdagradLUT lut) k m ld (fun _ => 0) buf (w, opt, li)).1 = w) ∧
    (∀ (lr : ℝ) (x : ℕ → ℝ) (ni nn : ℕ) (p : ℚ) (maxn : ℝ) (ex : ℕ)
        (w : ℕ → ℝ) (opt : ℕ → Unit),
      maxn = 0 ∨ ex % 10 ≠ 0 →
      (neuronBackward (optimizerSGD lr) x (fun _ => 0) ni nn p maxn ex w opt).1 = w) ∧
    (∀ (lr pt ia : ℝ) (x : ℕ → ℝ) (ni nn : ℕ) (p : ℚ) (maxn : ℝ) (ex : ℕ)
        (w : ℕ → ℝ) (opt : ℕ → ℝ),
      maxn = 0 ∨ ex % 10 ≠ 0 →
      (neuronBackward (optimizerAdagradFlex lr pt ia) x (fun _ => 0) ni nn p maxn ex w opt).1 = w) ∧
    (∀ (lut : ℝ → ℝ) (x : ℕ → ℝ) (ni nn : ℕ) (p : ℚ) (maxn : ℝ) (ex : ℕ)
        (w : ℕ → ℝ) (opt : ℕ → ℝ),
      maxn = 0 ∨ ex % 10 ≠ 0 →
      (neuronBackward (optimizerAdagradLUT lut) x (fun _ => 0) ni nn p maxn ex w opt).1 = w) ∧
    (∀ (w tw : ℕ → ℝ), driverWeightsAfter none w tw = w) := by
  refine ⟨?_, ?_, ?_, ?_, ?_, ?_, ?_, ?_⟩
  · intro inputs label
    have hg : (bsForwardBackward inputs label 0).2.1 = 0 := by
      cases h : fsum inputs with
      | none => simp [bsForwardBackward, h]
      | some w =>
        by_cases h1 : w < -50
        · simp [bsForwardBackward, h, if_pos h1]
        · by_cases h2 : w > 50
          · simp [bsForwardBackward, h, if_neg h1, if_pos h2]
          · simp [bsForwardBackward, h, if_neg h1, if_neg h2]
    refine ⟨hg, ?_⟩
    have : (bsForwardBackward inputs label 0).2.2 =
        List.replicate inputs.length ((bsForwardBackward inputs label 0).2.1) := by
      cases h : fsum inputs with
      | none => simp [bsForwardBackward, h]
      | some w =>
        by_cases h1 : w < -50
        · simp [bsForwardBackward, h, if_pos h1]
        · by_cases h2 : w > 50
          · simp [bsForwardBackward, h, if_neg h1, if_pos h2]
          · simp [bsForwardBackward, h, if_neg h1, if_neg h2]
    rw [this, hg]
  · intro lr k m ld buf w opt li
    exact ffmBackward_zero_weights _ (sgd_zero_update lr) k m ld buf (w, opt, li)
  · intro lr pt ia k m ld buf w opt li
    exact ffmBackward_zero_weights _ (adagradFlex_zero_update lr pt ia) k m ld buf (w, opt, li)
  · intro lut k m ld buf w opt li
    exact ffmBackward_zero_weights _ (adagradLUT_zero_update lut) k m ld buf (w, opt, li)
  · intro lr x ni nn p maxn ex w opt hmn
    exact neuronBwJ_zero_weights _ (sgd_zero_update lr) x ni nn p maxn ex hmn nn 0 _
  · intro lr pt ia x ni nn p maxn ex w opt hmn
    exact neuronBwJ_zero_weights _ (adagradFlex_zero_update lr pt ia) x ni nn p maxn ex hmn nn 0 _
  · intro lut x ni nn p maxn ex w opt hmn
    exact neuronBwJ_zero_weights _ (adagradLUT_zero_update lut) x ni nn p maxn ex hmn nn 0 _
  · intro w tw
    rfl

/-- C5 counterexample: a zero general gradient does NOT always leave the
neuron layer unchanged: with max_norm = 1, example number 0 (a multiple
of 10), one input and one neuron, weight 2 and a zero gradient region,
the backward pass rescales the weight to 1. -/
theorem C5_counterexample :
    (neuronBackward (optimizerSGD 1) (fun _ => 0) (fun _ => 0) 1 1 0 1 0
      (fun _ => 2) (fun _ => ())).1 0 ≠ 2 := by
  have hs4 : Real.sqrt 4 = 2 := by
    rw [show (4 : ℝ) = 2 ^ 2 by norm_num, Real.sqrt_sq (by norm_num)]
  have : (neuronBackward (optimizerSGD 1) (fun _ => 0) (fun _ => 0) 1 1 0 1 0
      (fun _ => 2) (fun _ => ())).1 0 = 1 := by
    simp [neuronBackward, neuronBwJ, neuronBwI, neuronMaxNorm, neuronDropGuard,
      optimizerSGD, Function.update, hs4]
  rw [this]
  norm_num

/-- C6: with dropout rate p in [0, 1), during training neuron j is
dropped exactly when p is nonzero and the deterministic coin
merand48(j + example_number²) is at most p (so replaying the same example
number reproduces the pattern); a dropped neuron emits 0 and its row and
bias weights are untouched by the backward pass; during inference
(update = false) every emitted output is scaled by (1 - p). -/
theorem C6_dropout_semantics :
    ∀ (w x : ℕ → ℚ) (ni nn : ℕ) (p : ℚ) (ex j : ℕ),
      0 ≤ p → p < 1 →
      (p ≠ 0 → (¬ neuronDropGuard p j ex ↔ merand48 (j + ex * ex) ≤ p)) ∧
      (neuronForwardOut w x ni nn p ex true j =
        if neuronDropGuard p j ex then neuronWsum w x ni nn j else 0) ∧
      (neuronForwardOut w x ni nn p ex false j =
        (if neuronDropGuard p j ex then neuronWsum w x ni nn j else 0) * (1 - p)) ∧
      (∀ (σ : Type) (O : Optim σ) (xr gt : ℕ → ℝ) (maxn : ℝ)
          (wr : ℕ → ℝ) (opt : ℕ → σ),
        ¬ neuronDropGuard p j ex → j < nn →
        (∀ i, i < ni →
          (neuronBackward O xr gt ni nn p maxn ex wr opt).1 (i + j * ni) =
            wr (i + j * ni)) ∧
        (neuronBackward O xr gt ni nn p maxn ex wr opt).1 (ni * nn + j) =
          wr (ni * nn + j)) := by
  intro w x ni nn p ex j hp0 hp1
  refine ⟨?_, ?_, ?_, ?_⟩
  · intro hpne
    unfold neuronDropGuard
    push_neg
    constructor
    · intro h; exact h.2
    · intro h; exact ⟨hpne, h⟩
  · rfl
  · rfl
  · intro σ O xr gt maxn wr opt hdrop hj
    have frame : ∀ idx : ℕ,
        (∀ j2, 0 ≤ j2 → j2 < 0 + nn → neuronDropGuard p j2 ex →
          ¬ (j2 * ni ≤ idx ∧ idx < j2 * ni + ni) ∧ idx ≠ ni * nn + j2) →
        (neuronBackward O xr gt ni nn p maxn ex wr opt).1 idx = wr idx := by
      intro idx hcond
      exact neuronBwJ_frame O xr gt ni nn p maxn ex nn 0 (wr, opt, fun _ => 0) idx hcond
    constructor
    · intro i hi
      apply frame
      intro j2 _ hj2 hkept
      have hne : j2 ≠ j := fun h => hdrop (h ▸ hkept)
      constructor
      · rintro ⟨hlo, hhi⟩
        rcases Nat.lt_or_ge j2 j with hlt | hge
        · have e1 : (j2 + 1) * ni = j2 * ni + ni := Nat.succ_mul _ _
          have e2 : (j2 + 1) * ni ≤ j * ni := Nat.mul_le_mul_right ni hlt
          omega
        · have hgt : j < j2 := lt_of_le_of_ne hge (Ne.symm hne)
          have e1 : (j + 1) * ni = j * ni + ni := Nat.succ_mul _ _
          have e2 : (j + 1) * ni ≤ j2 * ni := Nat.mul_le_mul_right ni hgt
          omega
      · have e1 : (j + 1) * ni = j * ni + ni := Nat.succ_mul _ _
        have e2 : (j + 1) * ni ≤ nn * ni := Nat.mul_le_mul_right ni hj
        have e3 : ni * nn = nn * ni := Nat.mul_comm _ _
        omega
    · apply frame
      intro j2 _ hj2 hkept
      have hne : j2 ≠ j := fun h => hdrop (h ▸ hkept)
      constructor
      · rintro ⟨hlo, hhi⟩
        have e1 : (j2 + 1) * ni = j2 * ni + ni := Nat.succ_mul _ _
        have e2 : (j2 + 1) * ni ≤ nn * ni :=
          Nat.mul_le_mul_right ni (by omega : j2 + 1 ≤ nn)
        have e3 : ni * nn = nn * ni := Nat.mul_comm _ _
        omega
      · omega

theorem C6_dropout_semantics_witness :
    neuronForwardOut (fun _ => 1) (fun _ => 1) 1 1 (1/2) 0 false 0 =
      (if neuronDropGuard (1/2) 0 0 then
        neuronWsum (fun _ => 1) (fun _ => 1) 1 1 0 else 0) * (1 - 1/2) :=
  (C6_dropout_semantics (fun _ => 1) (fun _ => 1) 1 1 (1/2) 0 0
    (by norm_num) (by norm_num)).2.2.1

theorem scanUntil_adv (b : List ℕ) (rowlen stop : ℕ) :
    ∀ (n fuel i : ℕ), n ≤ fuel →
      (∀ d, d < n → byteAt b (i + d) ≠ stop ∧ i + d < rowlen) →
      (byteAt b (i + n) = stop ∨ ¬ (i + n < rowlen)) →
      scanUntil b rowlen stop fuel i = i + n := by
  intro n
  induction n with
  | zero =>
    intro fuel i _ _ hstop
    cases fuel with
    | zero => rfl
    | succ f =>
      simp only [scanUntil]
      rw [if_neg]
      · omega
      · rintro ⟨h1, h2⟩
        rcases hstop with h | h
        · exact h1 (by simpa using h)
        · exact h (by simpa using h2)
  | succ m ih =>
    intro fuel i hfuel hall hstop
    cases fuel with
    | zero => omega
    | succ f =>
      simp only [scanUntil]
      rw [if_pos]
      · rw [ih f (i + 1) (by omega) ?hall ?hstop]
        · omega
        case hall =>
          intro d hd
          have h := hall (d + 1) (by omega)
          constructor
          · have e : i + (d + 1) = i + 1 + d := by omega
            rw [e] at h; exact h.1
          · omega
        case hstop =>
          have e : i + (m + 1) = i + 1 + m := by omega
          rw [e] at hstop; exact hstop
      · have h := hall 0 (by omega)
        simp only [Nat.add_zero] at h
        exact ⟨h.1, h.2⟩

theorem scanSpaces_adv (b : List ℕ) (rowlen : ℕ) :
    ∀ (n fuel i : ℕ), n ≤ fuel →
      (∀ d, d < n → byteAt b (i + d) = 0x20 ∧ i + d < rowlen) →
      (byteAt b (i + n) ≠ 0x20 ∨ ¬ (i + n < rowlen)) →
      scanSpaces b rowlen fuel i = i + n := by
  intro n
  induction n with
  | zero =>
    intro fuel i _ _ hstop
    cases fuel with
    | zero => rfl
    | succ f =>
      simp only [scanSpaces]
      rw [if_neg]
      · omega
      · rintro ⟨h1, h2⟩
        rcases hstop with h | h
        · exact h (by simpa using h1)
        · exact h (by simpa using h2)
  | succ m ih =>
    intro fuel i hfuel hall hstop
    cases fuel with
    | zero => omega
    | succ f =>
      simp only [scanSpaces]
      rw [if_pos]
      · rw [ih f (i + 1) (by omega) ?hall ?hstop]
        · omega
        case hall =>
          intro d hd
          have h := hall (d + 1) (by omega)
          constructor
          · have e : i + (d + 1) = i + 1 + d := by omega
            rw [e] at h; exact h.1
          · omega
        case hstop =>
          have e : i + (m + 1) = i + 1 + m := by omega
          rw [e] at hstop; exact hstop
      · have h := hall 0 (by omega)
        simp only [Nat.add_zero] at h
        exact ⟨h.1, h.2⟩

theorem bslice_middle (pre mid post : List ℕ) :
    bslice (pre ++ (mid ++ post)) pre.length (pre.length + mid.length) = mid := by
  unfold bslice
  rw [List.take_append, List.take_left, List.drop_left]

theorem byteAt_append_left (l1 l2 : List ℕ) (i : ℕ) (h : i < l1.length) :
    byteAt (l1 ++ l2) i = byteAt l1 i := by
  unfold byteAt
  exact List.getD_append _ _ _ _ h

theorem byteAt_append_right (l1 l2 : List ℕ) (i : ℕ) (h : l1.length ≤ i) :
    byteAt (l1 ++ l2) i = byteAt l2 (i - l1.length) := by
  unfold byteAt
  exact List.getD_append_right _ _ _ _ h

theorem byteAt_mem (l : List ℕ) (i : ℕ) (h : i < l.length) : byteAt l i ∈ l := by
  unfold byteAt
  rw [List.getD_eq_getElem l 0 h]
  exact List.getElem_mem h

theorem impStage_neg (env : ParserEnv) (lab sp1 impTok tail : List ℕ)
    (out1 : List Cell) (q : ℚ)
    (hlabns : ∀ x ∈ lab, x ≠ 0x20)
    (hsp : sp1 ≠ []) (hsps : ∀ x ∈ sp1, x = 0x20)
    (himpne : impTok ≠ []) (himpns : ∀ x ∈ impTok, x ≠ 0x20)
    (hnotbar : byteAt impTok 0 ≠ 0x7c)
    (hnone : impTok ≠ [0x4e, 0x4f, 0x4e, 0x45])
    (hq : env.parseF32 impTok = some (some q)) (hneg : q < 0)
    (htail : tail = [0x0a] ∨ byteAt tail 0 = 0x20) (htne : tail ≠ [])
    (hno : out1.getD 1 (Cell.u 0) ≠ Cell.u NO_LABEL) :
    impStage env (lab ++ (sp1 ++ (impTok ++ tail)))
      ((lab ++ (sp1 ++ (impTok ++ tail))).length - 1) out1 =
      .error (.ioerr "Example importance cannot be negative") := by
  have hsplen : 0 < sp1.length := List.length_pos.mpr hsp
  have himplen : 0 < impTok.length := List.length_pos.mpr himpne
  have htlen : 0 < tail.length := List.length_pos.mpr htne
  set b := lab ++ (sp1 ++ (impTok ++ tail)) with hbdef
  have hlen : b.length = lab.length + sp1.length + impTok.length + tail.length := by
    rw [hbdef, List.length_append, List.length_append, List.length_append]
    omega
  set rowlen := b.length - 1 with hrl
  have h1 : scanUntil b rowlen 0x20 (rowlen + 1) 0 = lab.length := by
    have := scanUntil_adv b rowlen 0x20 lab.length (rowlen + 1) 0
      (by omega)
      (by
        intro d hd
        constructor
        · rw [show (0 : ℕ) + d = d by omega, byteAt_append_left _ _ _ hd]
          exact hlabns _ (byteAt_mem _ _ hd)
        · omega)
      (by
        left
        rw [show (0 : ℕ) + lab.length = lab.length by omega,
          byteAt_append_right _ _ _ (le_refl _), Nat.sub_self,
          byteAt_append_left _ _ _ hsplen]
        exact hsps _ (byteAt_mem _ _ hsplen))
    omega
  have hmid : byteAt b (lab.length + sp1.length) = byteAt impTok 0 := by
    rw [byteAt_append_right _ _ _ (by omega),
      byteAt_append_right _ _ _ (by omega),
      show lab.length + sp1.length - lab.length - sp1.length = 0 from by omega,
      byteAt_append_left _ _ _ himplen]
  have h2 : scanSpaces b rowlen (rowlen + 1) lab.length = lab.length + sp1.length := by
    exact scanSpaces_adv b rowlen sp1.length (rowlen + 1) lab.length
      (by omega)
      (by
        intro d hd
        constructor
        · rw [byteAt_append_right _ _ _ (by omega)]
          have hd2 : lab.length + d - lab.length < sp1.length := by omega
          rw [byteAt_append_left _ _ _ hd2]
          exact hsps _ (byteAt_mem _ _ hd2)
        · omega)
      (by
        left
        rw [hmid]
        exact himpns _ (byteAt_mem _ _ himplen))
  have h3 : scanUntil b rowlen 0x20 (rowlen + 1) (lab.length + sp1.length) =
      lab.length + sp1.length + impTok.length := by
    have := scanUntil_adv b rowlen 0x20 impTok.length (rowlen + 1)
      (lab.length + sp1.length)
      (by omega)
      (by
        intro d hd
        constructor
        · rw [byteAt_append_right _ _ _ (by omega),
            byteAt_append_right _ _ _ (by omega),
            show lab.length + sp1.length + d - lab.length - sp1.length = d from by omega,
            byteAt_append_left _ _ _ hd]
          exact himpns _ (byteAt_mem _ _ hd)
        · omega)
      (by
        rcases htail with h | h
        · right
          have : tail.length = 1 := by rw [h]; rfl
          omega
        · left
          rw [byteAt_append_right _ _ _ (by omega),
            byteAt_append_right _ _ _ (by omega),
            byteAt_append_right _ _ _ (by omega),
            show lab.length + sp1.length + impTok.length - lab.length - sp1.length -
              impTok.length = 0 from by omega]
          exact h)
    omega
  have hslice : bslice b (lab.length + sp1.length)
      (lab.length + sp1.length + impTok.length) = impTok := by
    have hassoc : b = (lab ++ sp1) ++ (impTok ++ tail) := by
      rw [hbdef, List.append_assoc]
    have hlen2 : (lab ++ sp1).length = lab.length + sp1.length := by
      rw [List.length_append]
    have := bslice_middle (lab ++ sp1) impTok tail
    rw [hlen2] at this
    rw [hassoc]
    exact this
  unfold impStage
  rw [if_neg hno]
  simp only [h1, h2, hmid, h3, hslice]
  rw [if_neg hnotbar]
  unfold parseFloatOrError
  rw [if_neg hnone, hq]
  simp [hneg, Bind.bind, Except.bind]

theorem getD_set_self_of_lt {α : Type} (l : List α) (i : ℕ) (a d : α)
    (h : i < l.length) : (l.set i a).getD i d = a := by
  rw [List.getD_eq_getElem?_getD, List.getElem?_set_self]
  · simp
  · simpa using h

theorem getD_set_of_ne {α : Type} (l : List α) (i j : ℕ) (a d : α)
    (h : i ≠ j) : (l.set i a).getD j d = l.getD j d := by
  rw [List.getD_eq_getElem?_getD, List.getElem?_set_ne h, List.getD_eq_getElem?_getD]

theorem impStage_absent (env : ParserEnv) (lab sp1 rest : List ℕ)
    (out1 : List Cell)
    (hlabns : ∀ x ∈ lab, x ≠ 0x20)
    (hsp : sp1 ≠ []) (hsps : ∀ x ∈ sp1, x = 0x20)
    (hno : out1.getD 1 (Cell.u 0) ≠ Cell.u NO_LABEL) :
    impStage env (lab ++ (sp1 ++ (0x7c :: rest)))
      ((lab ++ (sp1 ++ (0x7c :: rest))).length - 1) out1 =
      .ok (out1.set 2 (Cell.f (some 1)), lab.length + sp1.length) := by
  have hsplen : 0 < sp1.length := List.length_pos.mpr hsp
  set b := lab ++ (sp1 ++ (0x7c :: rest)) with hbdef
  have hlen : b.length = lab.length + sp1.length + 1 + rest.length := by
    rw [hbdef, List.length_append, List.length_append, List.length_cons]
    omega
  set rowlen := b.length - 1 with hrl
  have hmid : byteAt b (lab.length + sp1.length) = 0x7c := by
    rw [byteAt_append_right _ _ _ (by omega),
      byteAt_append_right _ _ _ (by omega),
      show lab.length + sp1.length - lab.length - sp1.length = 0 from by omega]
    rfl
  have h1 : scanUntil b rowlen 0x20 (rowlen + 1) 0 = lab.length := by
    have := scanUntil_adv b rowlen 0x20 lab.length (rowlen + 1) 0
      (by omega)
      (by
        intro d hd
        constructor
        · rw [show (0 : ℕ) + d = d by omega, byteAt_append_left _ _ _ hd]
          exact hlabns _ (byteAt_mem _ _ hd)
        · omega)
      (by
        left
        rw [show (0 : ℕ) + lab.length = lab.length by omega,
          byteAt_append_right _ _ _ (le_refl _), Nat.sub_self,
          byteAt_append_left _ _ _ hsplen]
        exact hsps _ (byteAt_mem _ _ hsplen))
    omega
  have h2 : scanSpaces b rowlen (rowlen + 1) lab.length = lab.length + sp1.length := by
    exact scanSpaces_adv b rowlen sp1.length (rowlen + 1) lab.length
      (by omega)
      (by
        intro d hd
        constructor
        · rw [byteAt_append_right _ _ _ (by omega)]
          have hd2 : lab.length + d - lab.length < sp1.length := by omega
          rw [byteAt_append_left _ _ _ hd2]
          exact hsps _ (byteAt_mem _ _ hd2)
        · omega)
      (by
        left
        rw [hmid]
        norm_num)
  unfold impStage
  rw [if_neg hno]
  simp only [h1, h2, hmid]
  simp [pure, Except.pure]

/-- C9: a line with a label whose example-importance token parses to a
negative float makes the parser return the descriptive negative-importance
error (no example buffer is produced); an absent importance token (the
token after the label starts with `|`) stores the default importance 1.0;
concretely, `1 -0.1 |A a` errors and `1 |A a` parses with importance cell
1.0. -/
theorem C9_negative_importance_error :
    (∀ (env : ParserEnv) (c : ℕ) (labRest sp1 impTok tail : List ℕ) (q : ℚ),
      (c = 0x31 ∨ c = 0x2d) →
      (∀ x ∈ (c :: labRest), x ≠ 0x20) →
      sp1 ≠ [] → (∀ x ∈ sp1, x = 0x20) →
      impTok ≠ [] → (∀ x ∈ impTok, x ≠ 0x20) →
      byteAt impTok 0 ≠ 0x7c →
      impTok ≠ [0x4e, 0x4f, 0x4e, 0x45] →
      env.parseF32 impTok = some (some q) → q < 0 →
      (tail = [0x0a] ∨ byteAt tail 0 = 0x20) → tail ≠ [] →
      nextVowpal env ((c :: labRest) ++ (sp1 ++ (impTok ++ tail))) =
        .error (.ioerr "Example importance cannot be negative")) ∧
    (∀ (env : ParserEnv) (lab sp1 rest : List ℕ) (out1 : List Cell),
      (∀ x ∈ lab, x ≠ 0x20) →
      sp1 ≠ [] → (∀ x ∈ sp1, x = 0x20) →
      out1.getD 1 (Cell.u 0) ≠ Cell.u NO_LABEL →
      impStage env (lab ++ (sp1 ++ (0x7c :: rest)))
        ((lab ++ (sp1 ++ (0x7c :: rest))).length - 1) out1 =
        .ok (out1.set 2 (Cell.f (some 1)), lab.length + sp1.length)) ∧
    nextVowpal envC9 lineC9 = .error (.ioerr "Example importance cannot be negative") ∧
    nextVowpal envC9 lineC9b =
      .ok [Cell.u 6, Cell.u 1, Cell.f (some 1), Cell.u 5,
        Cell.u 2147483648, Cell.u 2147483648] := by
  refine ⟨?_, ?_, by with_unfolding_all rfl, by with_unfolding_all rfl⟩
  · intro env c labRest sp1 impTok tail q hc hlabns hsp hsps himpne himpns
      hnotbar hnone hq hneg htail htne
    have hb0 : byteAt ((c :: labRest) ++ (sp1 ++ (impTok ++ tail))) 0 = c := by
      rw [byteAt_append_left _ _ _ (by simp)]
      rfl
    rcases hc with hc | hc <;> subst hc
    · have hno : ((List.replicate (env.numNamespaces * 1 + 3) (Cell.u NO_FEATURES)).set 1
          (Cell.u 1)).getD 1 (Cell.u 0) ≠ Cell.u NO_LABEL := by
        rw [getD_set_self_of_lt _ _ _ _ (by simp)]
        simp [NO_LABEL]
      have himp := impStage_neg env (0x31 :: labRest) sp1 impTok tail
        ((List.replicate (env.numNamespaces * 1 + 3) (Cell.u NO_FEATURES)).set 1
          (Cell.u 1)) q
        hlabns hsp hsps himpne himpns hnotbar hnone hq hneg htail htne hno
      simp only [nextVowpal, hb0]
      simp only [if_true, if_false, Bind.bind, Except.bind, pure, Except.pure]
      rw [himp]
    · have hno : ((List.replicate (env.numNamespaces * 1 + 3) (Cell.u NO_FEATURES)).set 1
          (Cell.u 0)).getD 1 (Cell.u 0) ≠ Cell.u NO_LABEL := by
        rw [getD_set_self_of_lt _ _ _ _ (by simp)]
        simp [NO_LABEL]
      have himp := impStage_neg env (0x2d :: labRest) sp1 impTok tail
        ((List.replicate (env.numNamespaces * 1 + 3) (Cell.u NO_FEATURES)).set 1
          (Cell.u 0)) q
        hlabns hsp hsps himpne himpns hnotbar hnone hq hneg htail htne hno
      simp only [nextVowpal, hb0]
      simp only [if_true, if_false, Bind.bind, Except.bind, pure, Except.pure]
      rw [himp]
      simp
  · intro env lab sp1 rest out1 hlabns hsp hsps hno
    exact impStage_absent env lab sp1 rest out1 hlabns hsp hsps hno

/-- C8: for a namespace declared F32 the parser CHECKS the product of the
namespace weight and the feature weight: the feature step errors exactly
when that product differs from 1.0, and an accepted F32 feature stores the
parsed float as its value cell; concretely `-1 |B 3:3` and `-1 |B:3 3`
error while `-1 |B:2 3:0.5` (weight suffixes with product 1) parses. -/
theorem C8_f32_weight_attachment :
    (∀ (env : ParserEnv) (st : NsState) (nameTok : List ℕ)
        (suffixTok : Option (List ℕ)) (out : List Cell) (fw fv : FVal),
      st.format = NamespaceFormat.F32 →
      featWeightOf env suffixTok = .ok fw →
      floatValOf env nameTok = .ok fv →
      processFeature env st nameTok suffixTok out =
        (if fmul st.weight fw ≠ some 1 then
          Except.error (.ioerr "Namespaces that are f32 can not have weight attached")
        else .ok (processFeatureF32Ok env st nameTok fv out))) ∧
    nextVowpal envC8 lineC8b =
      .error (.ioerr "Namespaces that are f32 can not have weight attached") ∧
    nextVowpal envC8 lineC8c =
      .error (.ioerr "Namespaces that are f32 can not have weight attached") ∧
    nextVowpal envC8 lineC8d =
      .ok [Cell.u 8, Cell.u 0, Cell.f (some 1), Cell.u 2147483648,
        Cell.u 2147876872, Cell.u 2147483648, Cell.u 5, Cell.f (some 3)] := by
  refine ⟨?_, by with_unfolding_all rfl, by with_unfolding_all rfl,
    by with_unfolding_all rfl⟩
  intro env st nameTok suffixTok out fw fv hfmt hfw hfv
  unfold processFeature
  simp only [Bind.bind, Except.bind, hfw, hfv]
  rw [if_neg (by simp [hfmt])]
  rw [if_pos hfmt]
  by_cases h : fmul st.weight fw = some 1
  · simp [h, processFeatureF32Ok, pure, Except.pure]
  · simp [h, pure, Except.pure]

/-- C8 counterexample: the line `-1 |B 3:1` attaches the weight suffix
`:1` to a feature of the F32 namespace B, yet parsing SUCCEEDS (the spec
says any attached weight suffix must error). -/
theorem C8_counterexample :
    nextVowpal envC8 lineC8 =
      .ok [Cell.u 8, Cell.u 0, Cell.f (some 1), Cell.u 2147483648,
        Cell.u 2147876872, Cell.u 2147483648, Cell.u 5, Cell.f (some 3)] := by
  with_unfolding_all rfl

theorem dotk_comm (f : ℕ → ℚ) (a b k : ℕ) : dotk f f a b k = dotk f f b a k :=
  Finset.sum_congr rfl fun t _ => mul_comm _ _

theorem cell_inj {m a b a' b' : ℕ} (hb : b < m) (hb' : b' < m) :
    a * m + b = a' * m + b' ↔ a = a' ∧ b = b' := by
  constructor
  · intro h
    have ha : a = a' := by
      rcases Nat.lt_trichotomy a a' with hl | he | hg
      · have e1 : (a + 1) * m = a * m + m := Nat.succ_mul _ _
        have e2 : (a + 1) * m ≤ a' * m := Nat.mul_le_mul_right m hl
        omega
      · exact he
      · have e1 : (a' + 1) * m = a' * m + m := Nat.succ_mul _ _
        have e2 : (a' + 1) * m ≤ a * m := Nat.mul_le_mul_right m hg
        omega
    subst ha
    exact ⟨rfl, by omega⟩
  · rintro ⟨rfl, rfl⟩
    rfl

theorem filter_map_sum {α : Type} (l : List α) (p : α → Bool) (f : α → ℚ) (dflt : α) :
    ((l.filter p).map f).sum =
      ∑ q ∈ Finset.range l.length, if p (l.getD q dflt) then f (l.getD q dflt) else 0 := by
  induction l with
  | nil => simp
  | cons a t ih =>
    rw [List.length_cons, Finset.sum_range_succ']
    simp only [List.getD_cons_succ, List.getD_cons_zero]
    rw [← ih]
    by_cases h : p a <;> simp [List.filter_cons, h, add_comm]

theorem map_sum_positional {α : Type} (l : List α) (f : α → ℚ) (dflt : α) :
    (l.map f).sum = ∑ q ∈ Finset.range l.length, f (l.getD q dflt) := by
  induction l with
  | nil => simp
  | cons a t ih =>
    rw [List.length_cons, Finset.sum_range_succ']
    simp only [List.getD_cons_succ, List.getD_cons_zero]
    rw [← ih]
    simp [add_comm]

theorem dropWhile_head_not {α : Type} (p : α → Bool) (l : List α) (d : α) :
    l.dropWhile p = [] ∨ p ((l.dropWhile p).getD 0 d) = false := by
  induction l with
  | nil => left; rfl
  | cons a t ih =>
    by_cases h : p a
    · simpa [List.dropWhile_cons, h] using ih
    · right
      simp [List.dropWhile_cons, h]

theorem ffmFieldScan_run (w : ℕ → ℚ) (k m F : ℕ) (hk : 0 < k) :
    ∀ (xs rest : List HashAndValueAndSeq),
      (∀ x ∈ xs, x.contra_field_index = F * k) →
      (rest = [] ∨ (rest.getD 0 featD).contra_field_index ≠ F * k) →
      ∀ (fnum : ℕ) (contra out : ℕ → ℚ),
        ffmFieldScan w k m F (xs ++ rest) fnum contra out =
          (rest,
           fun idx =>
             if F * k * m ≤ idx ∧ idx < F * k * m + k * m then
               (if fnum = 0 ∧ xs ≠ [] then 0 else contra idx) +
                 fieldSlice w xs (idx - F * k * m)
             else contra idx,
           fun c => out c + (xs.map (fun x => corrOf w k m x c)).sum) := by
  intro xs
  induction xs with
  | nil =>
    intro rest hxs hrest fnum contra out
    have hstep : ffmFieldScan w k m F ([] ++ rest) fnum contra out = (rest, contra, out) := by
      match rest, hrest with
      | [], _ => rfl
      | f :: rest', hrest =>
        have hne : f.contra_field_index ≠ F * k := by
          rcases hrest with h | h
          · exact absurd h (by simp)
          · simpa using h
        show ffmFieldScan w k m F (f :: rest') fnum contra out = _
        unfold ffmFieldScan
        rw [if_neg hne]
    rw [hstep]
    simp only [Prod.mk.injEq]
    refine ⟨by trivial, ?_, ?_⟩
    · funext idx
      by_cases hin : F * k * m ≤ idx ∧ idx < F * k * m + k * m <;>
        simp [hin, fieldSlice]
    · funext c
      simp
  | cons x xs ih =>
    intro rest hxs hrest fnum contra out
    have hx : x.contra_field_index = F * k := hxs x (by simp)
    show ffmFieldScan w k m F (x :: (xs ++ rest)) fnum contra out = _
    unfold ffmFieldScan
    rw [if_pos hx]
    rw [ih rest (fun y hy => hxs y (by simp [hy])) hrest (fnum + 1)]
    simp only [Prod.mk.injEq]
    refine ⟨by trivial, ?_, ?_⟩
    · funext idx
      by_cases hin : F * k * m ≤ idx ∧ idx < F * k * m + k * m
      · rw [if_pos hin, if_pos hin]
        have hxsplus : ¬ (fnum + 1 = 0 ∧ xs ≠ []) := by
          rintro ⟨h, _⟩; omega
        rw [if_neg hxsplus]
        have hfw : ffmFeatureWrite w (F * k * m) (k * m) (fnum == 0) x.hash x.value contra idx =
            (if fnum = 0 then 0 else contra idx) + x.value * w (x.hash + (idx - F * k * m)) := by
          unfold ffmFeatureWrite
          rw [if_pos hin]
          by_cases hf : fnum = 0 <;> simp [hf]
        rw [hfw]
        have hslice : fieldSlice w (x :: xs) (idx - F * k * m) =
            x.value * w (x.hash + (idx - F * k * m)) + fieldSlice w xs (idx - F * k * m) := by
          simp [fieldSlice]
        rw [hslice]
        have hcond : (fnum = 0 ∧ (x :: xs : List HashAndValueAndSeq) ≠ []) ↔ fnum = 0 := by
          simp
        rw [if_congr hcond rfl rfl]
        ring
      · rw [if_neg hin, if_neg hin]
        unfold ffmFeatureWrite
        rw [if_neg hin]
    · funext c
      have hcorr : corrOf w k m x c =
          if c = x.contra_field_index / k * (m + 1) then
            -(dotk w w (x.hash + F * k) (x.hash + F * k) k * (1 / 2) * x.value * x.value)
          else 0 := by
        unfold corrOf
        rw [hx]
      simp only [List.map_cons, List.sum_cons]
      rw [hcorr]
      unfold addCell
      by_cases hc : c = x.contra_field_index / k * (m + 1) <;> simp [hc] <;> ring

theorem region_disjoint {k m F F2 idx : ℕ} (h : F < F2)
    (hin : F * k * m ≤ idx ∧ idx < F * k * m + k * m) :
    ¬ (F2 * k * m ≤ idx ∧ idx < F2 * k * m + k * m) := by
  rintro ⟨h1, _⟩
  have e1 : (F + 1) * k * m = F * k * m + k * m := by
    rw [Nat.succ_mul, Nat.add_mul]
  have e2 : (F + 1) * k * m ≤ F2 * k * m :=
    Nat.mul_le_mul_right m (Nat.mul_le_mul_right k h)
  omega

theorem ffmFields_run (w : ℕ → ℚ) (k m : ℕ) (hk : 0 < k) :
    ∀ (count F0 : ℕ) (rest : List HashAndValueAndSeq) (contra out : ℕ → ℚ),
      List.Pairwise (fun a b => a.contra_field_index ≤ b.contra_field_index) rest →
      (∀ x ∈ rest, ∃ F, F0 ≤ F ∧ F < F0 + count ∧ x.contra_field_index = F * k) →
      (∀ idx : ℕ,
          (∀ F, F0 ≤ F → F < F0 + count → ¬(F * k * m ≤ idx ∧ idx < F * k * m + k * m)) →
          (ffmFields w k m count F0 rest contra out).1 idx = contra idx) ∧
      (∀ F d, F0 ≤ F → F < F0 + count → d < k * m →
          (ffmFields w k m count F0 rest contra out).1 (F * k * m + d) =
            fieldSlice w (rest.filter (fun x => x.contra_field_index = F * k)) d) ∧
      (∀ c, (ffmFields w k m count F0 rest contra out).2 c =
          out c + (rest.map (fun x => corrOf w k m x c)).sum) := by
  intro count
  induction count with
  | zero =>
    intro F0 rest contra out hsorted hf
    refine ⟨fun idx _ => rfl, fun F d hF0 hFlt _ => absurd hFlt (by omega), fun c => ?_⟩
    match rest, hf with
    | [], _ => simp [ffmFields]
    | x :: rest', hf =>
      obtain ⟨F, h1, h2, _⟩ := hf x (by simp)
      omega
  | succ count ih =>
    intro F0 rest contra out hsorted hf
    match rest, hsorted, hf with
    | [], _, _ =>
      have hstep : ffmFields w k m (count + 1) F0 [] contra out =
          ffmFields w k m count (F0 + 1) []
            (regionZero contra (F0 * k * m) (k * m)) out := rfl
      have ihr := ih (F0 + 1) [] (regionZero contra (F0 * k * m) (k * m)) out
        List.Pairwise.nil (by simp)
      refine ⟨?_, ?_, ?_⟩
      · intro idx hidx
        rw [hstep, ihr.1 idx (fun F hF1 hF2 => hidx F (by omega) (by omega))]
        unfold regionZero
        rw [if_neg (hidx F0 (le_refl _) (by omega))]
      · intro F d hF0 hFlt hd
        rcases eq_or_lt_of_le hF0 with heq | hlt
        · -- the F0 region was zero-filled and no later field touches it
          rw [← heq]
          rw [hstep, ihr.1 (F0 * k * m + d)
            (fun F2 hF21 hF22 => region_disjoint (by omega)
              ⟨Nat.le_add_right _ _, by omega⟩)]
          unfold regionZero
          rw [if_pos ⟨Nat.le_add_right _ _, by omega⟩]
          simp [fieldSlice]
        · rw [hstep, ihr.2.1 F d (by omega) (by omega) hd]
      · intro c
        rw [hstep, ihr.2.2 c]
    | f :: rest', hsorted, hf =>
      obtain ⟨Ff, hFf0, hFflt, hcfi⟩ := hf f (by simp)
      have hgecfi : F0 * k ≤ f.contra_field_index := by
        rw [hcfi]; exact Nat.mul_le_mul_right k hFf0
      rcases Nat.lt_trichotomy (F0 * k) f.contra_field_index with hgt | heq | hlt
      · -- the head belongs to a later field: the F0 region is zero-filled
        have hstep : ffmFields w k m (count + 1) F0 (f :: rest') contra out =
            ffmFields w k m count (F0 + 1) (f :: rest')
              (regionZero contra (F0 * k * m) (k * m)) out := by
          show (if f.contra_field_index > F0 * k then _ else _) = _
          rw [if_pos hgt]
        have hallgt : ∀ x ∈ f :: rest', F0 * k < x.contra_field_index := by
          intro x hx
          rcases List.mem_cons.mp hx with rfl | hx'
          · exact hgt
          · exact lt_of_lt_of_le hgt ((List.pairwise_cons.mp hsorted).1 x hx')
        have hfe : ∀ x ∈ f :: rest',
            ∃ F, F0 + 1 ≤ F ∧ F < F0 + 1 + count ∧ x.contra_field_index = F * k := by
          intro x hx
          obtain ⟨F, h1, h2, h3⟩ := hf x hx
          have : F0 < F := by
            have := hallgt x hx
            rw [h3] at this
            exact (Nat.mul_lt_mul_right hk).mp this
          exact ⟨F, by omega, by omega, h3⟩
        have ihr := ih (F0 + 1) (f :: rest')
          (regionZero contra (F0 * k * m) (k * m)) out hsorted hfe
        refine ⟨?_, ?_, ?_⟩
        · intro idx hidx
          rw [hstep, ihr.1 idx (fun F hF1 hF2 => hidx F (by omega) (by omega))]
          unfold regionZero
          rw [if_neg (hidx F0 (le_refl _) (by omega))]
        · intro F d hF0' hFlt hd
          rcases eq_or_lt_of_le hF0' with heq2 | hlt2
          · rw [← heq2]
            rw [hstep, ihr.1 (F0 * k * m + d)
              (fun F2 hF21 hF22 => region_disjoint (by omega)
                ⟨Nat.le_add_right _ _, by omega⟩)]
            unfold regionZero
            rw [if_pos ⟨Nat.le_add_right _ _, by omega⟩]
            have hfilter : (f :: rest').filter
                (fun x => x.contra_field_index = F0 * k) = [] := by
              rw [List.filter_eq_nil_iff]
              intro x hx
              have := hallgt x hx
              simp only [decide_eq_true_eq]
              omega
            rw [hfilter]
            simp [fieldSlice]
          · rw [hstep, ihr.2.1 F d (by omega) (by omega) hd]
        · intro c
          rw [hstep, ihr.2.2 c]
      · -- the head belongs to field F0: the field scan consumes its features
        have heq' : f.contra_field_index = F0 * k := heq.symm
        set p : HashAndValueAndSeq → Bool :=
          fun x => decide (x.contra_field_index = F0 * k) with hp
        set xs := (f :: rest').takeWhile p with hxsdef
        set rest₂ := (f :: rest').dropWhile p with hr2def
        have hsplit : xs ++ rest₂ = f :: rest' := by
          rw [hxsdef, hr2def]
          exact List.takeWhile_append_dropWhile p (f :: rest')
        have hxs : ∀ x ∈ xs, x.contra_field_index = F0 * k := by
          intro x hx
          have := List.mem_takeWhile_imp hx
          rw [hp] at this
          exact of_decide_eq_true this
        have hr2head : rest₂ = [] ∨
            (rest₂.getD 0 featD).contra_field_index ≠ F0 * k := by
          rcases dropWhile_head_not p (f :: rest') featD with h | h
          · left; rw [hr2def]; exact h
          · right
            rw [hr2def]
            intro hc
            rw [hp] at h
            rw [← hr2def] at h
            exact absurd hc (of_decide_eq_false h)
        have hsub : List.Sublist rest₂ (f :: rest') :=
          List.IsSuffix.sublist ⟨xs, hsplit⟩
        have hsorted₂ : List.Pairwise
            (fun a b => a.contra_field_index ≤ b.contra_field_index) rest₂ :=
          hsorted.sublist hsub
        have hallgt₂ : ∀ x ∈ rest₂, F0 * k < x.contra_field_index := by
          intro x hx
          have hne2 : rest₂ ≠ [] := by
            intro h
            rw [h] at hx
            exact absurd hx (by simp)
          obtain ⟨h₂, t₂, hrm⟩ := List.exists_cons_of_ne_nil hne2
          have hh₂ : h₂.contra_field_index ≠ F0 * k := by
            rcases hr2head with h | h
            · exact absurd h hne2
            · rw [hrm] at h
              simpa using h
          have hh₂mem : h₂ ∈ f :: rest' := hsub.subset (by rw [hrm]; simp)
          obtain ⟨F, h1, _, h3⟩ := hf h₂ hh₂mem
          have hh₂gt : F0 * k < h₂.contra_field_index := by
            have h4 : F0 * k ≤ F * k := Nat.mul_le_mul_right k h1
            omega
          rw [hrm] at hx hsorted₂
          rcases List.mem_cons.mp hx with rfl | hx'
          · exact hh₂gt
          · exact lt_of_lt_of_le hh₂gt ((List.pairwise_cons.mp hsorted₂).1 x hx')
        have hfe₂ : ∀ x ∈ rest₂,
            ∃ F, F0 + 1 ≤ F ∧ F < F0 + 1 + count ∧ x.contra_field_index = F * k := by
          intro x hx
          obtain ⟨F, h1, h2, h3⟩ := hf x (hsub.subset hx)
          have : F0 < F := by
            have := hallgt₂ x hx
            rw [h3] at this
            exact (Nat.mul_lt_mul_right hk).mp this
          exact ⟨F, by omega, by omega, h3⟩
        have hpf : p f = true := by
          rw [hp]
          simpa using heq'
        have hxsne : xs ≠ [] := by
          rw [hxsdef]
          simp [List.takeWhile_cons, hpf]
        have hscan : ffmFieldScan w k m F0 (f :: rest') 0 contra out =
            (rest₂,
             fun idx =>
               if F0 * k * m ≤ idx ∧ idx < F0 * k * m + k * m then
                 (if (0 : ℕ) = 0 ∧ xs ≠ [] then 0 else contra idx) +
                   fieldSlice w xs (idx - F0 * k * m)
               else contra idx,
             fun c => out c + (xs.map (fun x => corrOf w k m x c)).sum) := by
          rw [← hsplit]
          exact ffmFieldScan_run w k m F0 hk xs rest₂ hxs hr2head 0 contra out
        have hstep : ffmFields w k m (count + 1) F0 (f :: rest') contra out =
            ffmFields w k m count (F0 + 1) rest₂
              (fun idx =>
                if F0 * k * m ≤ idx ∧ idx < F0 * k * m + k * m then
                  (if (0 : ℕ) = 0 ∧ xs ≠ [] then 0 else contra idx) +
                    fieldSlice w xs (idx - F0 * k * m)
                else contra idx)
              (fun c => out c + (xs.map (fun x => corrOf w k m x c)).sum) := by
          show (if f.contra_field_index > F0 * k then _
            else if f.contra_field_index = F0 * k then _ else _) = _
          rw [if_neg (by omega), if_pos heq', hscan]
        have ihr := ih (F0 + 1) rest₂
          (fun idx =>
            if F0 * k * m ≤ idx ∧ idx < F0 * k * m + k * m then
              (if (0 : ℕ) = 0 ∧ xs ≠ [] then 0 else contra idx) +
                fieldSlice w xs (idx - F0 * k * m)
            else contra idx)
          (fun c => out c + (xs.map (fun x => corrOf w k m x c)).sum)
          hsorted₂ hfe₂
        refine ⟨?_, ?_, ?_⟩
        · intro idx hidx
          rw [hstep, ihr.1 idx (fun F hF1 hF2 => hidx F (by omega) (by omega))]
          beta_reduce
          rw [if_neg (hidx F0 (le_refl _) (by omega))]
        · intro F d hF0' hFlt hd
          rcases eq_or_lt_of_le hF0' with heq2 | hlt2
          · rw [← heq2]
            rw [hstep, ihr.1 (F0 * k * m + d)
              (fun F2 hF21 hF22 => region_disjoint (by omega)
                ⟨Nat.le_add_right _ _, by omega⟩)]
            beta_reduce
            rw [if_pos ⟨Nat.le_add_right _ _, by omega⟩]
            rw [if_pos ⟨rfl, hxsne⟩]
            have hfilter : (f :: rest').filter
                (fun x => x.contra_field_index = F0 * k) = xs := by
              rw [← hsplit, List.filter_append]
              have h1 : xs.filter (fun x => x.contra_field_index = F0 * k) = xs := by
                rw [List.filter_eq_self]
                intro x hx
                simp only [decide_eq_true_eq]
                exact hxs x hx
              have h2 : rest₂.filter (fun x => x.contra_field_index = F0 * k) = [] := by
                rw [List.filter_eq_nil_iff]
                intro x hx
                have := hallgt₂ x hx
                simp only [decide_eq_true_eq]
                omega
              rw [h1, h2, List.append_nil]
            rw [hfilter, zero_add]
            congr 1
            omega
          · rw [hstep, ihr.2.1 F d (by omega) (by omega) hd]
            congr 1
            rw [← hsplit, List.filter_append]
            have h1 : xs.filter (fun x => x.contra_field_index = F * k) = [] := by
              rw [List.filter_eq_nil_iff]
              intro x hx
              have h3 := hxs x hx
              simp only [decide_eq_true_eq]
              intro hcon
              rw [h3] at hcon
              have : F0 = F := Nat.eq_of_mul_eq_mul_right hk hcon
              omega
            rw [h1, List.nil_append]
        · intro c
          rw [hstep, ihr.2.2 c]
          show out c + (xs.map fun x => corrOf w k m x c).sum +
              (rest₂.map fun x => corrOf w k m x c).sum = _
          rw [← hsplit, List.map_append, List.sum_append]
          ring
      · omega

theorem ffmPairsF2_run (contra : ℕ → ℚ) (k m fel f1 : ℕ) :
    ∀ (fuel f2 : ℕ) (out : ℕ → ℚ) (c : ℕ),
      ffmPairsF2 contra k m fel f1 fuel f2 out c =
        out c + ∑ d ∈ Finset.range fuel,
          ((if c = f1 * m + (f2 + d) then
              dotk contra contra (f1 * fel + (f2 + d) * k) ((f2 + d) * fel + f1 * k) k * (1 / 2)
            else 0) +
           (if c = (f2 + d) * m + f1 then
              dotk contra contra (f1 * fel + (f2 + d) * k) ((f2 + d) * fel + f1 * k) k * (1 / 2)
            else 0)) := by
  intro fuel
  induction fuel with
  | zero =>
    intro f2 out c
    simp [ffmPairsF2]
  | succ fuel ih =>
    intro f2 out c
    show ffmPairsF2 contra k m fel f1 fuel (f2 + 1)
        (addCell (addCell out (f1 * m + f2)
          (dotk contra contra (f1 * fel + f2 * k) (f2 * fel + f1 * k) k * (1 / 2)))
          (f2 * m + f1)
          (dotk contra contra (f1 * fel + f2 * k) (f2 * fel + f1 * k) k * (1 / 2))) c = _
    rw [ih (f2 + 1) _ c]
    rw [Finset.sum_range_succ']
    have hshift : ∀ d : ℕ,
        ((if c = f1 * m + (f2 + (d + 1)) then
            dotk contra contra (f1 * fel + (f2 + (d + 1)) * k) ((f2 + (d + 1)) * fel + f1 * k) k
              * (1 / 2)
          else 0) +
         (if c = (f2 + (d + 1)) * m + f1 then
            dotk contra contra (f1 * fel + (f2 + (d + 1)) * k) ((f2 + (d + 1)) * fel + f1 * k) k
              * (1 / 2)
          else 0)) =
        ((if c = f1 * m + (f2 + 1 + d) then
            dotk contra contra (f1 * fel + (f2 + 1 + d) * k) ((f2 + 1 + d) * fel + f1 * k) k
              * (1 / 2)
          else 0) +
         (if c = (f2 + 1 + d) * m + f1 then
            dotk contra contra (f1 * fel + (f2 + 1 + d) * k) ((f2 + 1 + d) * fel + f1 * k) k
              * (1 / 2)
          else 0)) := by
      intro d
      have he : f2 + (d + 1) = f2 + 1 + d := by omega
      rw [he]
    rw [Finset.sum_congr rfl (fun d _ => hshift d)]
    unfold addCell
    simp only [Nat.add_zero]
    split_ifs <;> ring

theorem ffmPairsF1_run (contra : ℕ → ℚ) (k m fel : ℕ) :
    ∀ (fuel f1 : ℕ) (out : ℕ → ℚ) (c : ℕ),
      ffmPairsF1 contra k m fel fuel f1 out c =
        out c + ∑ d ∈ Finset.range fuel,
          (ffmDiagTerm contra k m fel (f1 + d) c +
           ∑ e ∈ Finset.range (m - (f1 + d + 1)), ffmPairTerm contra k m fel (f1 + d) e c) := by
  intro fuel
  induction fuel with
  | zero =>
    intro f1 out c
    simp [ffmPairsF1]
  | succ fuel ih =>
    intro f1 out c
    show ffmPairsF1 contra k m fel fuel (f1 + 1)
        (ffmPairsF2 contra k m fel f1 (m - (f1 + 1)) (f1 + 1)
          (addCell out (f1 * m + f1)
            (dotk contra contra (f1 * fel + f1 * k) (f1 * fel + f1 * k) k * (1 / 2)))) c = _
    rw [ih (f1 + 1) _ c]
    have hinner := ffmPairsF2_run contra k m fel f1 (m - (f1 + 1)) (f1 + 1)
      (addCell out (f1 * m + f1)
        (dotk contra contra (f1 * fel + f1 * k) (f1 * fel + f1 * k) k * (1 / 2))) c
    rw [hinner]
    rw [Finset.sum_range_succ']
    have hshift : ∀ d : ℕ,
        (ffmDiagTerm contra k m fel (f1 + (d + 1)) c +
          ∑ e ∈ Finset.range (m - (f1 + (d + 1) + 1)),
            ffmPairTerm contra k m fel (f1 + (d + 1)) e c) =
        (ffmDiagTerm contra k m fel (f1 + 1 + d) c +
          ∑ e ∈ Finset.range (m - (f1 + 1 + d + 1)),
            ffmPairTerm contra k m fel (f1 + 1 + d) e c) := by
      intro d
      have he : f1 + (d + 1) = f1 + 1 + d := by omega
      rw [he]
    rw [Finset.sum_congr rfl (fun d _ => hshift d)]
    simp only [Nat.add_zero]
    have hpair : ∀ e : ℕ,
        ((if c = f1 * m + (f1 + 1 + e) then
            dotk contra contra (f1 * fel + (f1 + 1 + e) * k) ((f1 + 1 + e) * fel + f1 * k) k
              * (1 / 2)
          else 0) +
         (if c = (f1 + 1 + e) * m + f1 then
            dotk contra contra (f1 * fel + (f1 + 1 + e) * k) ((f1 + 1 + e) * fel + f1 * k) k
              * (1 / 2)
          else 0)) = ffmPairTerm contra k m fel f1 e c := by
      intro e
      rfl
    rw [Finset.sum_congr rfl (fun e _ => hpair e)]
    unfold addCell ffmDiagTerm
    split_ifs <;> ring

theorem double_dot_expand (w : ℕ → ℚ) (buf : List HashAndValueAndSeq) (k i j : ℕ) :
    ∑ t ∈ Finset.range k,
      (∑ p ∈ Finset.range buf.length,
        (if (buf.getD p featD).contra_field_index = i * k then
          (buf.getD p featD).value * w ((buf.getD p featD).hash + (j * k + t)) else 0)) *
      (∑ q ∈ Finset.range buf.length,
        (if (buf.getD q featD).contra_field_index = j * k then
          (buf.getD q featD).value * w ((buf.getD q featD).hash + (i * k + t)) else 0)) =
    ∑ p ∈ Finset.range buf.length, ∑ q ∈ Finset.range buf.length,
      (if (buf.getD p featD).contra_field_index = i * k ∧
          (buf.getD q featD).contra_field_index = j * k then
        (buf.getD p featD).value * (buf.getD q featD).value *
          dotk w w ((buf.getD p featD).hash + j * k) ((buf.getD q featD).hash + i * k) k
      else 0) := by
  rw [Finset.sum_congr rfl (fun t _ => Finset.sum_mul_sum
    (Finset.range buf.length) (Finset.range buf.length) _ _)]
  rw [Finset.sum_comm]
  refine Finset.sum_congr rfl (fun p _ => ?_)
  rw [Finset.sum_comm]
  refine Finset.sum_congr rfl (fun q _ => ?_)
  by_cases hp : (buf.getD p featD).contra_field_index = i * k
  · by_cases hq : (buf.getD q featD).contra_field_index = j * k
    · rw [if_pos ⟨hp, hq⟩]
      have hterm : ∀ t ∈ Finset.range k,
          (if (buf.getD p featD).contra_field_index = i * k then
            (buf.getD p featD).value * w ((buf.getD p featD).hash + (j * k + t)) else 0) *
          (if (buf.getD q featD).contra_field_index = j * k then
            (buf.getD q featD).value * w ((buf.getD q featD).hash + (i * k + t)) else 0) =
          (buf.getD p featD).value * (buf.getD q featD).value *
            (w ((buf.getD p featD).hash + j * k + t) *
             w ((buf.getD q featD).hash + i * k + t)) := by
        intro t _
        rw [if_pos hp, if_pos hq, ← Nat.add_assoc, ← Nat.add_assoc]
        ring
      rw [Finset.sum_congr rfl hterm]
      unfold dotk
      rw [Finset.mul_sum]
    · rw [if_neg (by tauto)]
      refine Finset.sum_eq_zero (fun t _ => ?_)
      rw [if_neg hq, mul_zero]
  · rw [if_neg (by tauto)]
    refine Finset.sum_eq_zero (fun t _ => ?_)
    rw [if_neg hp, zero_mul]

theorem pairsum_eval (contra : ℕ → ℚ) (k m fel i j : ℕ) (hi : i < m) (hj : j < m) :
    ∑ d ∈ Finset.range m, (ffmDiagTerm contra k m fel d (i * m + j) +
      ∑ e ∈ Finset.range (m - (d + 1)), ffmPairTerm contra k m fel d e (i * m + j)) =
    if i = j then dotk contra contra (i * fel + i * k) (i * fel + i * k) k * (1 / 2)
    else if i < j then dotk contra contra (i * fel + j * k) (j * fel + i * k) k * (1 / 2)
    else dotk contra contra (j * fel + i * k) (i * fel + j * k) k * (1 / 2) := by
  rw [Finset.sum_add_distrib]
  have hdiag : ∑ d ∈ Finset.range m, ffmDiagTerm contra k m fel d (i * m + j) =
      if i = j then dotk contra contra (i * fel + i * k) (i * fel + i * k) k * (1 / 2)
      else 0 := by
    by_cases hij : i = j
    · subst hij
      rw [if_pos rfl]
      rw [Finset.sum_eq_single_of_mem i (Finset.mem_range.mpr hi)]
      · unfold ffmDiagTerm
        rw [if_pos rfl]
      · intro b hb hbne
        unfold ffmDiagTerm
        rw [if_neg]
        intro hc
        exact hbne ((cell_inj hi (Finset.mem_range.mp hb)).mp hc).1.symm
    · rw [if_neg hij]
      refine Finset.sum_eq_zero (fun d hd => ?_)
      unfold ffmDiagTerm
      rw [if_neg]
      intro hc
      obtain ⟨h1, h2⟩ := (cell_inj hj (Finset.mem_range.mp hd)).mp hc
      exact hij (h1.trans h2.symm)
  have hpair : ∑ d ∈ Finset.range m,
      ∑ e ∈ Finset.range (m - (d + 1)), ffmPairTerm contra k m fel d e (i * m + j) =
      if i = j then 0
      else if i < j then dotk contra contra (i * fel + j * k) (j * fel + i * k) k * (1 / 2)
      else dotk contra contra (j * fel + i * k) (i * fel + j * k) k * (1 / 2) := by
    rcases Nat.lt_trichotomy i j with hlt | heq | hgt
    · rw [if_neg (by omega), if_pos hlt]
      rw [Finset.sum_eq_single_of_mem i (Finset.mem_range.mpr hi)]
      · rw [Finset.sum_eq_single_of_mem (j - i - 1) (Finset.mem_range.mpr (by omega))]
        · unfold ffmPairTerm
          have he : i + 1 + (j - i - 1) = j := by omega
          rw [he]
          have hn2 : ¬ (i * m + j = j * m + i) := by
            intro hc
            obtain ⟨h1, h2⟩ := (cell_inj hj hi).mp hc
            omega
          rw [if_pos rfl, if_neg hn2, add_zero]
        · intro e he hene
          unfold ffmPairTerm
          have hem : i + 1 + e < m := by
            have := Finset.mem_range.mp he
            omega
          have hn1 : ¬ (i * m + j = i * m + (i + 1 + e)) := by
            intro hc
            obtain ⟨h1, h2⟩ := (cell_inj hj hem).mp hc
            omega
          have hn2 : ¬ (i * m + j = (i + 1 + e) * m + i) := by
            intro hc
            obtain ⟨h1, h2⟩ := (cell_inj hj hi).mp hc
            omega
          rw [if_neg hn1, if_neg hn2, add_zero]
      · intro d hd hdne
        refine Finset.sum_eq_zero (fun e he => ?_)
        unfold ffmPairTerm
        have hdm : d < m := Finset.mem_range.mp hd
        have hem : d + 1 + e < m := by
          have := Finset.mem_range.mp he
          omega
        have hn1 : ¬ (i * m + j = d * m + (d + 1 + e)) := by
          intro hc
          obtain ⟨h1, h2⟩ := (cell_inj hj hem).mp hc
          exact hdne h1.symm
        have hn2 : ¬ (i * m + j = (d + 1 + e) * m + d) := by
          intro hc
          obtain ⟨h1, h2⟩ := (cell_inj hj hdm).mp hc
          omega
        rw [if_neg hn1, if_neg hn2, add_zero]
    · subst heq
      rw [if_pos rfl]
      refine Finset.sum_eq_zero (fun d hd => Finset.sum_eq_zero (fun e he => ?_))
      unfold ffmPairTerm
      have hdm : d < m := Finset.mem_range.mp hd
      have hem : d + 1 + e < m := by
        have := Finset.mem_range.mp he
        omega
      have hn1 : ¬ (i * m + i = d * m + (d + 1 + e)) := by
        intro hc
        obtain ⟨h1, h2⟩ := (cell_inj hi hem).mp hc
        omega
      have hn2 : ¬ (i * m + i = (d + 1 + e) * m + d) := by
        intro hc
        obtain ⟨h1, h2⟩ := (cell_inj hi hdm).mp hc
        omega
      rw [if_neg hn1, if_neg hn2, add_zero]
    · rw [if_neg (by omega), if_neg (by omega)]
      rw [Finset.sum_eq_single_of_mem j (Finset.mem_range.mpr hj)]
      · rw [Finset.sum_eq_single_of_mem (i - j - 1) (Finset.mem_range.mpr (by omega))]
        · unfold ffmPairTerm
          have he : j + 1 + (i - j - 1) = i := by omega
          rw [he]
          have hn1 : ¬ (i * m + j = j * m + i) := by
            intro hc
            obtain ⟨h1, h2⟩ := (cell_inj hj hi).mp hc
            omega
          rw [if_neg hn1, if_pos rfl, zero_add]
        · intro e he hene
          unfold ffmPairTerm
          have hem : j + 1 + e < m := by
            have := Finset.mem_range.mp he
            omega
          have hn1 : ¬ (i * m + j = j * m + (j + 1 + e)) := by
            intro hc
            obtain ⟨h1, h2⟩ := (cell_inj hj hem).mp hc
            omega
          have hn2 : ¬ (i * m + j = (j + 1 + e) * m + j) := by
            intro hc
            obtain ⟨h1, h2⟩ := (cell_inj hj hj).mp hc
            omega
          rw [if_neg hn1, if_neg hn2, add_zero]
      · intro d hd hdne
        refine Finset.sum_eq_zero (fun e he => ?_)
        unfold ffmPairTerm
        have hdm : d < m := Finset.mem_range.mp hd
        have hem : d + 1 + e < m := by
          have := Finset.mem_range.mp he
          omega
        have hn1 : ¬ (i * m + j = d * m + (d + 1 + e)) := by
          intro hc
          obtain ⟨h1, h2⟩ := (cell_inj hj hem).mp hc
          omega
        have hn2 : ¬ (i * m + j = (d + 1 + e) * m + d) := by
          intro hc
          obtain ⟨h1, h2⟩ := (cell_inj hj hdm).mp hc
          exact hdne h2.symm
        rw [if_neg hn1, if_neg hn2, add_zero]
  rw [hdiag, hpair]
  rcases Nat.lt_trichotomy i j with hlt | heq | hgt
  · simp only [if_neg (show ¬ i = j by omega), if_pos hlt, zero_add]
  · subst heq
    simp
  · simp only [if_neg (show ¬ i = j by omega), if_neg (show ¬ i < j by omega), zero_add]

theorem ffmSpecCell_symm (w : ℕ → ℚ) (k : ℕ) (buf : List HashAndValueAndSeq) (i j : ℕ) :
    ffmSpecCell w k buf i j = ffmSpecCell w k buf j i := by
  unfold ffmSpecCell
  rw [Finset.sum_comm]
  refine Finset.sum_congr rfl (fun p _ => Finset.sum_congr rfl (fun q _ => ?_))
  by_cases hc : (buf.getD q featD).contra_field_index = i * k ∧
      (buf.getD p featD).contra_field_index = j * k ∧ ¬(i = j ∧ q = p)
  · rw [if_pos hc, if_pos ⟨hc.2.1, hc.1, fun h => hc.2.2 ⟨h.1.symm, h.2.symm⟩⟩]
    rw [dotk_comm]
    ring
  · rw [if_neg hc, if_neg]
    intro h
    exact hc ⟨h.2.1, h.1, fun h2 => h.2.2 ⟨h2.1.symm, h2.2.symm⟩⟩

theorem ffmForward_cell (w : ℕ → ℚ) (k m : ℕ) (buf : List HashAndValueAndSeq)
    (contra0 : ℕ → ℚ) (i j : ℕ) (hk : 0 < k) (hi : i < m) (hj : j < m)
    (hsorted : List.Pairwise (fun a b => a.contra_field_index ≤ b.contra_field_index) buf)
    (hfields : ∀ x ∈ buf, ∃ F, F < m ∧ x.contra_field_index = F * k) :
    ffmForward w k m buf contra0 (i * m + j) = (1 / 2) * ffmSpecCell w k buf i j := by
  have hrun := ffmFields_run w k m hk m 0 buf contra0 (fun _ => 0) hsorted
    (fun x hx => by
      obtain ⟨F, h1, h2⟩ := hfields x hx
      exact ⟨F, Nat.zero_le _, by omega, h2⟩)
  show ffmPairsF1 (ffmFields w k m m 0 buf contra0 (fun _ => 0)).1 k m (k * m) m 0
      (ffmFields w k m m 0 buf contra0 (fun _ => 0)).2 (i * m + j) =
    (1 / 2) * ffmSpecCell w k buf i j
  rw [ffmPairsF1_run]
  simp only [Nat.zero_add]
  rw [pairsum_eval _ k m (k * m) i j hi hj]
  have hout : (ffmFields w k m m 0 buf contra0 (fun _ => 0)).2 (i * m + j) =
      (buf.map (fun x => corrOf w k m x (i * m + j))).sum := by
    rw [hrun.2.2]
    beta_reduce
    rw [zero_add]
  have hcontra : ∀ F d, F < m → d < k * m →
      (ffmFields w k m m 0 buf contra0 (fun _ => 0)).1 (F * k * m + d) =
        fieldSlice w (buf.filter (fun x => x.contra_field_index = F * k)) d :=
    fun F d hF hd => hrun.2.1 F d (Nat.zero_le _) (by omega) hd
  have hslicebound : ∀ b t : ℕ, b < m → t < k → b * k + t < k * m := by
    intro b t hb ht
    have e1 : (b + 1) * k = b * k + k := Nat.succ_mul _ _
    have e2 : (b + 1) * k ≤ m * k := Nat.mul_le_mul_right k hb
    have e3 : m * k = k * m := Nat.mul_comm _ _
    omega
  have hdot : ∀ a b : ℕ, a < m → b < m →
      dotk (ffmFields w k m m 0 buf contra0 (fun _ => 0)).1
        (ffmFields w k m m 0 buf contra0 (fun _ => 0)).1
        (a * (k * m) + b * k) (b * (k * m) + a * k) k =
      ∑ p ∈ Finset.range buf.length, ∑ q ∈ Finset.range buf.length,
        (if (buf.getD p featD).contra_field_index = a * k ∧
            (buf.getD q featD).contra_field_index = b * k then
          (buf.getD p featD).value * (buf.getD q featD).value *
            dotk w w ((buf.getD p featD).hash + b * k) ((buf.getD q featD).hash + a * k) k
        else 0) := by
    intro a b ha hb
    have h1 : ∀ t, t < k →
        (ffmFields w k m m 0 buf contra0 (fun _ => 0)).1 (a * (k * m) + b * k + t) =
        ∑ p ∈ Finset.range buf.length,
          (if (buf.getD p featD).contra_field_index = a * k then
            (buf.getD p featD).value * w ((buf.getD p featD).hash + (b * k + t)) else 0) := by
      intro t ht
      have harg : a * (k * m) + b * k + t = a * k * m + (b * k + t) := by
        have e : a * (k * m) = a * k * m := (Nat.mul_assoc a k m).symm
        omega
      rw [harg, hcontra a (b * k + t) ha (hslicebound b t hb ht)]
      unfold fieldSlice
      rw [filter_map_sum buf _ _ featD]
      refine Finset.sum_congr rfl (fun p _ => ?_)
      simp only [decide_eq_true_eq]
    have h2 : ∀ t, t < k →
        (ffmFields w k m m 0 buf contra0 (fun _ => 0)).1 (b * (k * m) + a * k + t) =
        ∑ q ∈ Finset.range buf.length,
          (if (buf.getD q featD).contra_field_index = b * k then
            (buf.getD q featD).value * w ((buf.getD q featD).hash + (a * k + t)) else 0) := by
      intro t ht
      have harg : b * (k * m) + a * k + t = b * k * m + (a * k + t) := by
        have e : b * (k * m) = b * k * m := (Nat.mul_assoc b k m).symm
        omega
      rw [harg, hcontra b (a * k + t) hb (hslicebound a t ha ht)]
      unfold fieldSlice
      rw [filter_map_sum buf _ _ featD]
      refine Finset.sum_congr rfl (fun q _ => ?_)
      simp only [decide_eq_true_eq]
    show ∑ t ∈ Finset.range k, _ * _ = _
    rw [Finset.sum_congr rfl (fun t ht =>
      by rw [h1 t (Finset.mem_range.mp ht), h2 t (Finset.mem_range.mp ht)])]
    exact double_dot_expand w buf k a b
  by_cases hij : i = j
  · subst hij
    rw [if_pos rfl]
    rw [hout, hdot i i hi hi]
    have hcorrpos : (buf.map (fun x => corrOf w k m x (i * m + i))).sum =
        ∑ p ∈ Finset.range buf.length,
          (if (buf.getD p featD).contra_field_index = i * k then
            -((1 / 2) * ((buf.getD p featD).value * (buf.getD p featD).value *
              dotk w w ((buf.getD p featD).hash + i * k)
                ((buf.getD p featD).hash + i * k) k))
          else 0) := by
      rw [map_sum_positional buf _ featD]
      refine Finset.sum_congr rfl (fun p hp => ?_)
      have hmem : buf.getD p featD ∈ buf := by
        rw [List.getD_eq_getElem buf featD (Finset.mem_range.mp hp)]
        exact List.getElem_mem _
      obtain ⟨F, hF, hcfi⟩ := hfields _ hmem
      unfold corrOf
      by_cases hcase : (buf.getD p featD).contra_field_index = i * k
      · have hFi : F = i := Nat.eq_of_mul_eq_mul_right hk (hcfi.symm.trans hcase)
        have hpc : i * m + i = (buf.getD p featD).contra_field_index / k * (m + 1) := by
          rw [hcfi, Nat.mul_div_cancel _ hk, hFi, Nat.mul_succ]
        rw [if_pos hpc, if_pos hcase, hcase]
        ring
      · have hnc : ¬ (i * m + i =
            (buf.getD p featD).contra_field_index / k * (m + 1)) := by
          rw [hcfi, Nat.mul_div_cancel _ hk, Nat.mul_succ]
          intro hc
          obtain ⟨h1, h2⟩ := (cell_inj hi hF).mp hc
          exact hcase (hcfi.trans (by rw [h1]))
        rw [if_neg hnc, if_neg hcase]
    rw [hcorrpos]
    have hneg : (∑ p ∈ Finset.range buf.length,
        (if (buf.getD p featD).contra_field_index = i * k then
          -((1 / 2) * ((buf.getD p featD).value * (buf.getD p featD).value *
            dotk w w ((buf.getD p featD).hash + i * k)
              ((buf.getD p featD).hash + i * k) k))
        else 0)) =
        -((1 / 2) * ∑ p ∈ Finset.range buf.length,
          (if (buf.getD p featD).contra_field_index = i * k then
            (buf.getD p featD).value * (buf.getD p featD).value *
              dotk w w ((buf.getD p featD).hash + i * k)
                ((buf.getD p featD).hash + i * k) k
          else 0)) := by
      rw [Finset.mul_sum, ← Finset.sum_neg_distrib]
      refine Finset.sum_congr rfl (fun p _ => ?_)
      split_ifs <;> ring
    rw [hneg]
    have hsplitsum : ∑ p ∈ Finset.range buf.length, ∑ q ∈ Finset.range buf.length,
        (if (buf.getD p featD).contra_field_index = i * k ∧
            (buf.getD q featD).contra_field_index = i * k then
          (buf.getD p featD).value * (buf.getD q featD).value *
            dotk w w ((buf.getD p featD).hash + i * k) ((buf.getD q featD).hash + i * k) k
        else 0) =
        ffmSpecCell w k buf i i +
        ∑ p ∈ Finset.range buf.length,
          (if (buf.getD p featD).contra_field_index = i * k then
            (buf.getD p featD).value * (buf.getD p featD).value *
              dotk w w ((buf.getD p featD).hash + i * k) ((buf.getD p featD).hash + i * k) k
          else 0) := by
      unfold ffmSpecCell
      rw [← Finset.sum_add_distrib]
      refine Finset.sum_congr rfl (fun p hp => ?_)
      have hper : ∀ q ∈ Finset.range buf.length,
          (if (buf.getD p featD).contra_field_index = i * k ∧
              (buf.getD q featD).contra_field_index = i * k then
            (buf.getD p featD).value * (buf.getD q featD).value *
              dotk w w ((buf.getD p featD).hash + i * k) ((buf.getD q featD).hash + i * k) k
          else 0) =
          (if (buf.getD p featD).contra_field_index = i * k ∧
              (buf.getD q featD).contra_field_index = i * k ∧ ¬(i = i ∧ p = q) then
            (buf.getD p featD).value * (buf.getD q featD).value *
              dotk w w ((buf.getD p featD).hash + i * k) ((buf.getD q featD).hash + i * k) k
          else 0) +
          (if q = p then
            (if (buf.getD p featD).contra_field_index = i * k then
              (buf.getD p featD).value * (buf.getD p featD).value *
                dotk w w ((buf.getD p featD).hash + i * k) ((buf.getD p featD).hash + i * k) k
            else 0)
          else 0) := by
        intro q _
        by_cases hqp : q = p
        · subst hqp
          by_cases hA : (buf.getD q featD).contra_field_index = i * k
          · rw [if_pos ⟨hA, hA⟩, if_neg (by tauto), if_pos rfl, if_pos hA, zero_add]
          · rw [if_neg (by tauto), if_neg (by tauto), if_pos rfl, if_neg hA, zero_add]
        · by_cases hA : (buf.getD p featD).contra_field_index = i * k ∧
              (buf.getD q featD).contra_field_index = i * k
          · rw [if_pos hA, if_pos ⟨hA.1, hA.2, by tauto⟩, if_neg hqp, add_zero]
          · rw [if_neg hA, if_neg (by tauto), if_neg hqp, add_zero]
      rw [Finset.sum_congr rfl hper, Finset.sum_add_distrib]
      congr 1
      rw [Finset.sum_ite_eq' (Finset.range buf.length) p]
      rw [if_pos hp]
    rw [hsplitsum]
    ring
  · rw [if_neg hij]
    have hcorrzero : (buf.map (fun x => corrOf w k m x (i * m + j))).sum = 0 := by
      refine List.sum_eq_zero (fun y hy => ?_)
      obtain ⟨x, hx, rfl⟩ := List.mem_map.mp hy
      obtain ⟨F, hF, hcfi⟩ := hfields x hx
      unfold corrOf
      rw [if_neg]
      rw [hcfi, Nat.mul_div_cancel _ hk, Nat.mul_succ]
      intro hc
      obtain ⟨h1, h2⟩ := (cell_inj hj hF).mp hc
      exact hij (h1.trans h2.symm)
    rw [hout, hcorrzero, zero_add]
    by_cases hlt : i < j
    · rw [if_pos hlt, hdot i j hi hj]
      have hspec : ffmSpecCell w k buf i j =
          ∑ p ∈ Finset.range buf.length, ∑ q ∈ Finset.range buf.length,
            (if (buf.getD p featD).contra_field_index = i * k ∧
                (buf.getD q featD).contra_field_index = j * k then
              (buf.getD p featD).value * (buf.getD q featD).value *
                dotk w w ((buf.getD p featD).hash + j * k)
                  ((buf.getD q featD).hash + i * k) k
            else 0) := by
        unfold ffmSpecCell
        refine Finset.sum_congr rfl (fun p _ => Finset.sum_congr rfl (fun q _ => ?_))
        by_cases hc : (buf.getD p featD).contra_field_index = i * k ∧
            (buf.getD q featD).contra_field_index = j * k
        · rw [if_pos ⟨hc.1, hc.2, fun h => hij h.1⟩, if_pos hc]
        · rw [if_neg (fun h => hc ⟨h.1, h.2.1⟩), if_neg hc]
      rw [hspec]
      ring
    · rw [if_neg hlt, hdot j i hj hi]
      have hji : ¬ (j = i) := fun h => hij h.symm
      have hspec : ffmSpecCell w k buf j i =
          ∑ p ∈ Finset.range buf.length, ∑ q ∈ Finset.range buf.length,
            (if (buf.getD p featD).contra_field_index = j * k ∧
                (buf.getD q featD).contra_field_index = i * k then
              (buf.getD p featD).value * (buf.getD q featD).value *
                dotk w w ((buf.getD p featD).hash + i * k)
                  ((buf.getD q featD).hash + j * k) k
            else 0) := by
        unfold ffmSpecCell
        refine Finset.sum_congr rfl (fun p _ => Finset.sum_congr rfl (fun q _ => ?_))
        by_cases hc : (buf.getD p featD).contra_field_index = j * k ∧
            (buf.getD q featD).contra_field_index = i * k
        · rw [if_pos ⟨hc.1, hc.2, fun h => hji h.1⟩, if_pos hc]
        · rw [if_neg (fun h => hc ⟨h.1, h.2.1⟩), if_neg hc]
      rw [ffmSpecCell_symm w k buf i j, hspec]
      ring

/-- C1: for a feature buffer sorted by contra_field_index (fields
contiguous, every index a multiple `F * k` of the embedding size with
`F < m`), every FFM forward output cell `(i, j)` equals ONE HALF of the
sum over `f` in field i and `g` in field j of
`value_f * value_g * <w[hash_f + j*k ..], w[hash_g + i*k ..]>` with the
pair `f = g` excluded when `i = j` (the spec omits the factor 1/2); the
boundary consequences hold: a field with no features contributes zero to
its row and column cells, and a field with at most one feature has a zero
diagonal cell. -/
theorem C1_ffm_forward_cells (w : ℕ → ℚ) (k m : ℕ) (buf : List HashAndValueAndSeq)
    (contra0 : ℕ → ℚ) (hk : 0 < k)
    (hsorted : List.Pairwise (fun a b => a.contra_field_index ≤ b.contra_field_index) buf)
    (hfields : ∀ x ∈ buf, ∃ F, F < m ∧ x.contra_field_index = F * k) :
    (∀ i j, i < m → j < m →
      ffmForward w k m buf contra0 (i * m + j) = (1 / 2) * ffmSpecCell w k buf i j) ∧
    (∀ i j, i < m → j < m → (∀ x ∈ buf, x.contra_field_index ≠ i * k) →
      ffmForward w k m buf contra0 (i * m + j) = 0 ∧
      ffmForward w k m buf contra0 (j * m + i) = 0) ∧
    (∀ i, i < m →
      (∀ p q, p < buf.length → q < buf.length →
        (buf.getD p featD).contra_field_index = i * k →
        (buf.getD q featD).contra_field_index = i * k → p = q) →
      ffmForward w k m buf contra0 (i * m + i) = 0) := by
  have hmem : ∀ p, p < buf.length → buf.getD p featD ∈ buf := by
    intro p hp
    rw [List.getD_eq_getElem buf featD hp]
    exact List.getElem_mem _
  refine ⟨fun i j hi hj => ffmForward_cell w k m buf contra0 i j hk hi hj hsorted hfields,
    ?_, ?_⟩
  · intro i j hi hj hempty
    constructor
    · rw [ffmForward_cell w k m buf contra0 i j hk hi hj hsorted hfields]
      have hz : ffmSpecCell w k buf i j = 0 := by
        unfold ffmSpecCell
        refine Finset.sum_eq_zero (fun p hp => Finset.sum_eq_zero (fun q hq => ?_))
        rw [if_neg]
        intro hcond
        exact hempty _ (hmem p (Finset.mem_range.mp hp)) hcond.1
      rw [hz, mul_zero]
    · rw [ffmForward_cell w k m buf contra0 j i hk hj hi hsorted hfields]
      have hz : ffmSpecCell w k buf j i = 0 := by
        unfold ffmSpecCell
        refine Finset.sum_eq_zero (fun p hp => Finset.sum_eq_zero (fun q hq => ?_))
        rw [if_neg]
        intro hcond
        exact hempty _ (hmem q (Finset.mem_range.mp hq)) hcond.2.1
      rw [hz, mul_zero]
  · intro i hi huniq
    rw [ffmForward_cell w k m buf contra0 i i hk hi hi hsorted hfields]
    have hz : ffmSpecCell w k buf i i = 0 := by
      unfold ffmSpecCell
      refine Finset.sum_eq_zero (fun p hp => Finset.sum_eq_zero (fun q hq => ?_))
      rw [if_neg]
      intro hcond
      exact hcond.2.2 ⟨rfl, huniq p q (Finset.mem_range.mp hp) (Finset.mem_range.mp hq)
        hcond.1 hcond.2.1⟩
    rw [hz, mul_zero]

theorem C1_ffm_forward_cells_witness :
    ffmForward (fun _ => 1) 1 2 [⟨0, 1, 0⟩, ⟨1, 1, 1⟩] (fun _ => 37) (0 * 2 + 1) =
      (1 / 2) * ffmSpecCell (fun _ => 1) 1 [⟨0, 1, 0⟩, ⟨1, 1, 1⟩] 0 1 :=
  (C1_ffm_forward_cells (fun _ => 1) 1 2 [⟨0, 1, 0⟩, ⟨1, 1, 1⟩] (fun _ => 37)
    (by norm_num) (by decide)
    (by
      intro x hx
      rcases List.mem_cons.mp hx with rfl | hx2
      · exact ⟨0, by norm_num, rfl⟩
      · rcases List.mem_singleton.mp hx2 with rfl
        exact ⟨1, by norm_num, rfl⟩)).1 0 1 (by norm_num) (by norm_num)

/-- C1 counterexample: at the concrete two-field single-feature-each
buffer with all weights 1, the FFM forward writes 1/2 into cell (0, 1)
while the spec's formula (without the factor 1/2) gives 1. -/
theorem C1_counterexample :
    ffmForward (fun _ => 1) 1 2 [⟨0, 1, 0⟩, ⟨1, 1, 1⟩] (fun _ => 0) (0 * 2 + 1) ≠
      ffmSpecCell (fun _ => 1) 1 [⟨0, 1, 0⟩, ⟨1, 1, 1⟩] 0 1 := by
  with_unfolding_all decide
